import Mathlib

/-!
# Verification of the UP (Unified Properties) parser (uplang/js)

This file gives a shallow embedding of the two parser variants present in the
repository and proves (or refutes) the frozen claims about them.

* `UpTS` embeds the `Parser` class of `src/up.ts` / the first module of
  `src/unnamed/part_000` (the richer TypeScript variant with `!use`/`!lint`
  directives, line-oriented `key:` syntax, the `!quoted` annotation and inline
  blocks).  The `Parser` class of `src/up.ts` is a strict subset of this code
  (it lacks directives, line-oriented mode, `quoted` handling and inline
  blocks) and is identical to it on the routines the claims cite
  (`#parseBlock`, `#parseMultiline`, `#parseList`, `#parseInlineList`,
  `#dedent`, the driver's blank/comment skipping).

* `UpAlt` embeds the `UpParser` class (second module of
  `src/unnamed/part_000`, identical to the JavaScript `UpParser` of
  `src/unnamed/part_001`), which splits input on `/\r?\n/` and has no
  falsy-line checks inside its loops.

Strings are modelled as `List Char`.  All JS string inputs relevant to the
claims are ASCII, so JS whitespace (`\s`, `String.prototype.trim`) is modelled
by the ASCII whitespace characters; the Unicode whitespace code points that JS
additionally recognises never occur in any input considered here.

The recursive-descent loops are modelled with an explicit fuel parameter so
that every definition is structurally recursive and hence computable by the
kernel.  Fuel is only there to make termination syntactic: every recursive
call consumes one unit, and a run over `n` lines makes at most three calls per
line (driver/loop step, `#parseLine`, `#parseValue`) plus one loop-entry and
one end-of-input check per nested structure, so the entry points hand the
parsers `8 * n + 16` units, far more than any run can consume; the
fuel-exhaustion branches are unreachable from the entry points.
-/

namespace UpLib

/-- ASCII whitespace as recognised by JS `\s` and `String.prototype.trim`
(the inputs in this development are ASCII; JS additionally treats some
Unicode code points as whitespace). -/
def isJsWs (c : Char) : Bool :=
  c = ' ' || c = '\t' || c = '\n' || c = '\r' || c = '\x0b' || c = '\x0c'

/-- Leading-whitespace strip (the left half of `String.prototype.trim`). -/
def ltrim (s : List Char) : List Char := s.dropWhile isJsWs

/-- Trailing-whitespace strip (the right half of `String.prototype.trim`). -/
def rtrim (s : List Char) : List Char := s.rdropWhile isJsWs

/-- JS `s.trim()`. -/
def jsTrim (s : List Char) : List Char := rtrim (ltrim s)

/-- JS `s.startsWith(p)`. -/
def jsStartsWith : List Char → List Char → Bool
  | [], _ => true
  | _ :: _, [] => false
  | p :: ps, c :: cs => p = c && jsStartsWith ps cs

/-- JS `hay.includes(needle)`. -/
def jsIncludes (needle : List Char) : List Char → Bool
  | [] => jsStartsWith needle []
  | c :: rest => jsStartsWith needle (c :: rest) || jsIncludes needle rest

/-- JS `s.indexOf(ch)` for a single character, as an `Option Nat`
(`none` models the result `-1`). -/
def firstIdxOf (ch : Char) : List Char → Option Nat
  | [] => none
  | c :: rest => if c = ch then some 0 else (firstIdxOf ch rest).map (· + 1)

/-- JS `s.split(sep)` for a single-character separator: empty pieces are
preserved and splitting the empty string yields `[""]`. -/
def jsSplitChar (sep : Char) : List Char → List (List Char)
  | [] => [[]]
  | c :: rest =>
    match jsSplitChar sep rest with
    | [] => [[c]]
    | h :: t => if c = sep then [] :: h :: t else (c :: h) :: t

/-- Remove one trailing `'\r'` if present. -/
def stripTrailCR (s : List Char) : List Char :=
  if s.getLast? = some '\r' then s.dropLast else s

/-- `input.split('\n')` (the `Parser` class of `up.ts`/`part_000`). -/
def splitLF (s : List Char) : List (List Char) := jsSplitChar '\n' s

/-- `input.split(/\r?\n/)` (the `UpParser` class).  Because the regex
consumes a `'\r'` exactly when it immediately precedes the `'\n'`, this
equals splitting on `'\n'` and then removing one trailing `'\r'` from each
piece. -/
def splitRN (s : List Char) : List (List Char) :=
  (jsSplitChar '\n' s).map stripTrailCR

/-- Replace each `'\n'` by `"\r\n"`: turns an LF text into the CRLF text for
the same lines. -/
def crlfOf : List Char → List Char
  | [] => []
  | c :: rest => if c = '\n' then '\r' :: '\n' :: crlfOf rest else c :: crlfOf rest

/-- JS `obj[key] = value` on a plain object holding string keys, modelled on
the property table as an association list in *property-creation order*: an
existing key is updated in place (its creation slot is unchanged), a new key
is appended at the end.  This is exactly how JS objects store string-keyed
properties; the *enumeration* order observable through `Object.keys` /
`JSON.stringify` is derived from this table by `jsOwnKeys`, which moves
array-index-like keys (such as `"0"`) to the front in ascending numeric
order and keeps all other keys in creation order. -/
def insertJS {α : Type} (k : List Char) (v : α) :
    List (List Char × α) → List (List Char × α)
  | [] => [(k, v)]
  | (k', v') :: rest =>
    if k' = k then (k', v) :: rest else (k', v') :: insertJS k v rest

/-- Association-list lookup (observation used to state claims about blocks). -/
def lookupAL {α : Type} (k : List Char) : List (List Char × α) → Option α
  | [] => none
  | (k', v') :: rest => if k' = k then some v' else lookupAL k rest

/-- The value of the last assignment to `k` in a sequence of key/value
assignments (`none` when `k` is never assigned). -/
def lastVal {α : Type} (k : List Char) : List (List Char × α) → Option α
  | [] => none
  | (k', v') :: rest =>
    match lastVal k rest with
    | some v => some v
    | none => if k' = k then some v' else none

/-- The keys of an assignment sequence in order of first appearance, each
kept once, skipping keys already in `seen`. -/
def newKeys (seen : List (List Char)) : List (List Char) → List (List Char)
  | [] => []
  | k :: rest =>
    if k ∈ seen then newKeys seen rest else k :: newKeys (k :: seen) rest

/-- Keys in order of first appearance, each kept once. -/
def firstKeys (l : List (List Char)) : List (List Char) := newKeys [] l

/-- Numeric value of an all-digit key (used to order array-index keys). -/
def arrIdxVal (s : List Char) : Nat :=
  s.foldl (fun a c => 10 * a + (c.toNat - 48)) 0

/-- Whether a string key is an *array index* in the sense of the ECMAScript
object model: the canonical decimal form (all digits, no leading zero except
`"0"` itself) of an integer `n` with `0 ≤ n < 2^32 - 1`.  Such keys are
enumerated before all other string keys, in ascending numeric order. -/
def isArrayIndex (s : List Char) : Bool :=
  !s.isEmpty && s.all (fun c => c.isDigit) &&
    (s = ['0'] || s.head? ≠ some '0') && arrIdxVal s < 4294967295

/-- Insert a key into a list sorted by ascending `arrIdxVal` (stable). -/
def insertByVal (x : List Char) : List (List Char) → List (List Char)
  | [] => [x]
  | y :: rest =>
    if arrIdxVal x ≤ arrIdxVal y then x :: y :: rest
    else y :: insertByVal x rest

/-- Sort keys by ascending `arrIdxVal` (insertion sort, stable). -/
def sortByVal : List (List Char) → List (List Char)
  | [] => []
  | x :: rest => insertByVal x (sortByVal rest)

/-- The enumeration order of a plain JS object's string keys
(`OrdinaryOwnPropertyKeys`): array-index keys in ascending numeric order
first, then all remaining keys in property-creation order. -/
def jsOwnKeysOf (keys : List (List Char)) : List (List Char) :=
  sortByVal (keys.filter isArrayIndex) ++
    keys.filter (fun k => !isArrayIndex k)

/-- Enumeration order of the keys of a property table (see `insertJS`). -/
def jsOwnKeys {α : Type} (b : List (List Char × α)) : List (List Char) :=
  jsOwnKeysOf (b.map Prod.fst)

end UpLib

namespace UpTS

open UpLib

/-- The `Value` union of `up.ts`/`part_000` (module 1):
`string | Block | List | Table | UseDirective`.  A `Block` is a plain JS
object, modelled as an insertion-ordered association list (see `insertJS`). -/
inductive Value : Type where
  | scalar (s : List Char)
  | block (entries : List (List Char × Value))
  | vlist (items : List Value)
  | table (columns : List Value) (rows : List (List Value))
  | use (namespaces : List (List Char))

/-- A parsed node: `{ key, typeAnnotation?, value }`.  The field
`typeAnn` models `typeAnnotation` (`none` when the key token had no `!`). -/
structure Node where
  key : List Char
  typeAnn : Option (List Char)
  value : Value

/-- The `Document` class: an ordered list of top-level nodes. -/
structure Document where
  nodes : List Node

/-- `#stripSurroundingQuotes`: remove one matching pair of surrounding double
quotes (only when the length is at least 2 and both ends are `"`). -/
def stripSurroundingQuotes (s : List Char) : List Char :=
  if 2 ≤ s.length ∧ s.head? = some '"' ∧ s.getLast? = some '"' then
    (s.drop 1).dropLast
  else s

/-- `line.match(/^(\S+)\s*(.*)$/)` (no `m` flag).  The regex matches iff
(a) the line starts with a non-whitespace character, and (b) after the
maximal leading non-whitespace run and the maximal whitespace run that
follows it, the remainder contains no `'\r'` or `'\n'` (JS `.` does not match
line terminators, and `$` anchors at the very end of the string; shrinking
`\S+` or `\s*` by backtracking can only move such a character *into* the
`(.*)` group, never out of it, so the greedy decomposition is the only
candidate).  On success the groups are the leading non-whitespace run and
that remainder. -/
def jsMatchSplit (line : List Char) : Option (List Char × List Char) :=
  match line with
  | [] => none
  | c :: rest =>
    if isJsWs c then none
    else
      let key := (c :: rest).takeWhile (fun d => !isJsWs d)
      let after := ((c :: rest).dropWhile (fun d => !isJsWs d)).dropWhile isJsWs
      if after.any (fun d => d == '\r' || d == '\n') then none
      else some (key, after)

/-- `#splitKeyValue` of `part_000` module 1: split a raw line into key token,
value remainder and the line-oriented flag.  When the regex fails the whole
trimmed line becomes the key.  Line-oriented mode (key token ends with `:`
and does not contain `://`) strips the colon, trims the remainder, cuts it at
the first `#` (`indexOf`, not quote-aware), trims again and strips one pair
of surrounding quotes; traditional mode only strips surrounding quotes. -/
def splitKeyValue (line : List Char) : List Char × List Char × Bool :=
  match jsMatchSplit line with
  | none => (jsTrim line, [], false)
  | some (keyPart, valPart) =>
    if keyPart.getLast? = some ':' ∧ jsIncludes ("://".data) keyPart = false then
      let key := keyPart.dropLast
      let v1 := jsTrim valPart
      let v2 :=
        match firstIdxOf '#' v1 with
        | some idx => jsTrim (v1.take idx)
        | none => v1
      (key, stripSurroundingQuotes v2, true)
    else
      (keyPart, stripSurroundingQuotes valPart, false)

/-- `#parseKeyAndType`: split the key token at the first `!` into the key
name and the (possibly empty) type annotation string. -/
def parseKeyAndType (keyPart : List Char) : List Char × Option (List Char) :=
  match firstIdxOf '!' keyPart with
  | none => (keyPart, none)
  | some idx => (keyPart.take idx, some (keyPart.drop (idx + 1)))

/-- `#parseInlineList`: trim, strip `[`/`]` (`slice(1, -1)`), return `[]`
when the content trims to nothing, else split on `,` and trim each item. -/
def parseInlineListL (s : List Char) : List (List Char) :=
  let content := ((jsTrim s).drop 1).dropLast
  if jsTrim content = [] then []
  else (jsSplitChar ',' content).map jsTrim

/-- `#parseInlineBlock`: trim, strip `{`/`}` and trim again; split on `,`;
each non-blank segment goes back through `#splitKeyValue` and
`#parseKeyAndType` and is stored as a raw scalar string. -/
def parseInlineBlockL (s : List Char) : List (List Char × Value) :=
  let content := jsTrim (((jsTrim s).drop 1).dropLast)
  if content = [] then []
  else
    (jsSplitChar ',' content).foldl
      (fun b part =>
        let trimmed := jsTrim part
        if trimmed = [] then b
        else
          let kv := splitKeyValue trimmed
          let kt := parseKeyAndType kv.1
          insertJS kt.1 (Value.scalar kv.2.1) b)
      []

/-- The leading-digits part of JS `parseInt(s, 10)` after sign handling
(`none` models `NaN`). -/
def digitsPrefix (s : List Char) : Option Nat :=
  let ds := s.takeWhile (fun c => c.isDigit)
  if ds = [] then none
  else some (ds.foldl (fun a c => 10 * a + (c.toNat - 48)) 0)

/-- JS `parseInt(s, 10)`: skip leading whitespace, optional sign, then the
maximal run of decimal digits (`none` models `NaN`). -/
def jsParseInt (s : List Char) : Option Int :=
  match ltrim s with
  | '-' :: rest => (digitsPrefix rest).map (fun n => -(n : Int))
  | '+' :: rest => (digitsPrefix rest).map (fun n => (n : Int))
  | t => (digitsPrefix t).map (fun n => (n : Int))

/-- One line of `#dedent`: `line.length >= amount ? line.slice(amount) : line`
with JS `slice` semantics (a negative start counts from the end, clamped
at 0). -/
def dedentLine (amount : Int) (line : List Char) : List Char :=
  if amount ≤ (line.length : Int) then
    if 0 ≤ amount then line.drop amount.toNat
    else line.drop (line.length - (-amount).toNat)
  else line

/-- `#dedent`: apply `dedentLine` to every `'\n'`-separated line. -/
def dedent (text : List Char) (amount : Int) : List Char :=
  List.intercalate ['\n'] ((jsSplitChar '\n' text).map (dedentLine amount))

/-- The accumulation loop of `#parseMultiline`: starting at `startIndex`,
collect raw lines until end of input, a falsy (empty) line (`if (!line)
break;` — the empty line is *not* consumed and *not* appended), or a line
trimming to three backticks (consumed). -/
def multilineLoop (fuel : Nat) (lines : List (List Char)) (i : Nat)
    (acc : List (List Char)) : List (List Char) × Nat :=
  match fuel with
  | 0 => (acc, i)
  | fuel+1 =>
    if lines.length ≤ i then (acc, i)
    else
      let line := lines.getD i []
      if line = [] then (acc, i)
      else if jsTrim line = "```".data then (acc, i + 1)
      else multilineLoop fuel lines (i + 1) (acc ++ [line])

/-- `#parseMultiline`: join the collected lines with `'\n'` and, when the
type annotation is truthy (non-`null`, non-empty) and `parseInt`s to a
number, dedent by that amount. -/
def parseMultilineF (fuel : Nat) (lines : List (List Char)) (i : Nat)
    (typeAnn : Option (List Char)) : Value × Nat :=
  let r := multilineLoop fuel lines i []
  let text := List.intercalate ['\n'] r.1
  let text :=
    match typeAnn with
    | some (c :: cs) =>
      match jsParseInt (c :: cs) with
      | some d => dedent text d
      | none => text
    | _ => text
  (.scalar text, r.2)

mutual

/-- `#parseLine`: split the raw line into key token and value remainder,
extract the type annotation, handle the `quoted` annotation specially
(rewrite the annotation to `string` and force surrounding quotes unless the
remainder already both starts and ends with `"`), otherwise dispatch on the
value remainder.  Returns the node and the next unconsumed line index. -/
def parseLineF (fuel : Nat) (lines : List (List Char)) (i : Nat) : Node × Nat :=
  match fuel with
  | 0 => (⟨[], none, .scalar []⟩, i + 1)
  | fuel+1 =>
    let line := lines.getD i []
    let kv := splitKeyValue line
    let kt := parseKeyAndType kv.1
    if kt.2 = some ("quoted".data) then
      let quotedVal :=
        if kv.2.1.head? = some '"' ∧ kv.2.1.getLast? = some '"' then kv.2.1
        else '"' :: (kv.2.1 ++ ['"'])
      (⟨kt.1, some ("string".data), .scalar quotedVal⟩, i + 1)
    else
      let r := parseValueF fuel lines i kv.2.1 kt.2
      (⟨kt.1, kt.2, r.1⟩, r.2)
termination_by structural fuel

/-- `#parseValue`: dispatch on the value remainder, in source order —
multiline (```` ``` ```` prefix), block (`{` exactly), list (`[` exactly),
inline list (starts `[` and ends `]`), inline block (starts `{` and contains
`}`), else scalar. -/
def parseValueF (fuel : Nat) (lines : List (List Char)) (i : Nat)
    (valPart : List Char) (typeAnn : Option (List Char)) : Value × Nat :=
  match fuel with
  | 0 => (.scalar [], i + 1)
  | fuel+1 =>
    if jsStartsWith ("```".data) valPart then
      parseMultilineF fuel lines (i + 1) typeAnn
    else if valPart = ['\x7b'] then
      let r := parseBlockF fuel lines (i + 1) []
      (.block r.1, r.2)
    else if valPart = ['['] then
      let r := parseListF fuel lines (i + 1) []
      (.vlist r.1, r.2)
    else if valPart.head? = some '[' ∧ valPart.getLast? = some ']' then
      (.vlist ((parseInlineListL valPart).map .scalar), i + 1)
    else if valPart.head? = some '\x7b' ∧ jsIncludes ['\x7d'] valPart then
      (.block (parseInlineBlockL valPart), i + 1)
    else
      (.scalar valPart, i + 1)
termination_by structural fuel

/-- `#parseBlock`: consume lines after the opening line.  A falsy (empty)
line *breaks out of the block* (`if (!line) break;`) without being consumed;
a line trimming to `}` is consumed and ends the block; a whitespace-only or
`#`-comment line is skipped; any other line goes through `#parseLine` and is
inserted into the block object (`block[node.key] = node.value`). -/
def parseBlockF (fuel : Nat) (lines : List (List Char)) (i : Nat)
    (acc : List (List Char × Value)) : List (List Char × Value) × Nat :=
  match fuel with
  | 0 => (acc, i)
  | fuel+1 =>
    if lines.length ≤ i then (acc, i)
    else
      let line := lines.getD i []
      if line = [] then (acc, i)
      else
        let trimmed := jsTrim line
        if trimmed = ['\x7d'] then (acc, i + 1)
        else if trimmed = [] ∨ jsStartsWith ['#'] trimmed then
          parseBlockF fuel lines (i + 1) acc
        else
          let r := parseLineF fuel lines i
          parseBlockF fuel lines r.2 (insertJS r.1.key r.1.value acc)
termination_by structural fuel

/-- `#parseList`: consume lines after the opening line.  A falsy (empty)
line breaks out (`if (!line) break;`); `]` (trimmed) is consumed and ends
the list; blank/comment lines are skipped; a trimmed line that starts `[`
and ends `]` is appended as an inline list; a trimmed line equal to `{`
starts a nested block; any other trimmed line is appended as a scalar. -/
def parseListF (fuel : Nat) (lines : List (List Char)) (i : Nat)
    (acc : List Value) : List Value × Nat :=
  match fuel with
  | 0 => (acc, i)
  | fuel+1 =>
    if lines.length ≤ i then (acc, i)
    else
      let line := lines.getD i []
      if line = [] then (acc, i)
      else
        let trimmed := jsTrim line
        if trimmed = [']'] then (acc, i + 1)
        else if trimmed = [] ∨ jsStartsWith ['#'] trimmed then
          parseListF fuel lines (i + 1) acc
        else if trimmed.head? = some '[' ∧ trimmed.getLast? = some ']' then
          parseListF fuel lines (i + 1)
            (acc ++ [.vlist ((parseInlineListL trimmed).map .scalar)])
        else if trimmed = ['\x7b'] then
          let r := parseBlockF fuel lines (i + 1) []
          parseListF fuel lines r.2 (acc ++ [.block r.1])
        else
          parseListF fuel lines (i + 1) (acc ++ [.scalar trimmed])
termination_by structural fuel

end

/-- The error message thrown by `#parseUseDirective`. -/
def useMsg : List Char :=
  "!use directive requires a list: !use [namespace1, namespace2]".data

/-- The error message thrown by `#parseLintDirective`. -/
def lintMsg : List Char :=
  "!lint directive requires a block: !lint \x7b ... \x7d".data

/-- `#parseUseDirective` (receives the already-trimmed line): drop the four
characters `!use`, trim; if the result starts with `[` parse it as an inline
list and wrap it as the `_use` pseudo-node, else throw. -/
def parseUseDirectiveM (line : List Char) : Except (List Char) Node :=
  let content := jsTrim ((jsTrim line).drop 4)
  if jsStartsWith ['['] content then
    .ok ⟨"_use".data, some ("directive".data), .use (parseInlineListL content)⟩
  else .error useMsg

/-- `#parseLintDirective`: drop the five characters `!lint` from the trimmed
line; the rest must trim to exactly `{`, in which case the following lines
are parsed as a block and wrapped as the `_lint` pseudo-node, else throw. -/
def parseLintDirectiveM (fuel : Nat) (lines : List (List Char)) (i : Nat) :
    Except (List Char) (Node × Nat) :=
  let content := jsTrim ((jsTrim (lines.getD i [])).drop 5)
  if content = ['\x7b'] then
    let r := parseBlockF fuel lines (i + 1) []
    .ok (⟨"_lint".data, some ("directive".data), .block r.1⟩, r.2)
  else .error lintMsg

/-- The driver loop of `parseDocument`: skip falsy lines, blank lines and
`#`-comment lines; route `!use`/`!lint` lines (by trimmed prefix) to the
directive parsers, whose errors propagate as-is — these calls sit *outside*
the driver's `try`; parse every other line generically and append the node.
The `try/catch` that would prefix `line N:` to an inner message is dead code
in this source: none of the generic-line routines can throw, so the model
has no wrapping case. -/
def parseDocumentF (fuel : Nat) (lines : List (List Char)) (i : Nat)
    (acc : List Node) : Except (List Char) (List Node) :=
  match fuel with
  | 0 => .ok acc
  | fuel+1 =>
    if lines.length ≤ i then .ok acc
    else
      let line := lines.getD i []
      if line = [] then parseDocumentF fuel lines (i + 1) acc
      else
        let trimmed := jsTrim line
        if trimmed = [] ∨ jsStartsWith ['#'] trimmed then
          parseDocumentF fuel lines (i + 1) acc
        else if jsStartsWith ("!use".data) trimmed then
          match parseUseDirectiveM trimmed with
          | .ok nd => parseDocumentF fuel lines (i + 1) (acc ++ [nd])
          | .error e => .error e
        else if jsStartsWith ("!lint".data) trimmed then
          match parseLintDirectiveM fuel lines i with
          | .ok r => parseDocumentF fuel lines r.2 (acc ++ [r.1])
          | .error e => .error e
        else
          let r := parseLineF fuel lines i
          parseDocumentF fuel lines r.2 (acc ++ [r.1])

/-- Entry fuel: a safe over-approximation of the number of recursive calls a
run over these lines can make (at most three dispatch calls per consumed
line plus one end-of-input check per open structure). -/
def parseFuel (lines : List (List Char)) : Nat := 8 * lines.length + 16

/-- `Parser.parseDocument` on a character list: split on `'\n'` and run the
driver. -/
def parseDocumentL (input : List Char) : Except (List Char) (List Node) :=
  let lines := splitLF input
  parseDocumentF (parseFuel lines) lines 0 []

/-- `parse(input)` of `up.ts`/`part_000` module 1. -/
def parseS (input : String) : Except (List Char) Document :=
  (parseDocumentL input.data).map Document.mk

end UpTS

namespace UpAlt

open UpLib

/-- The `UpValue` union of the `UpParser` module:
`string | UpBlock | UpList | UpTable`.  `UpTable` is built from a
`Partial<UpTable>` cast, so either field may be absent. -/
inductive UpValue : Type where
  | scalar (s : List Char)
  | block (entries : List (List Char × UpValue))
  | ulist (items : List UpValue)
  | table (columns : Option (List (List Char))) (rows : Option (List (List (List Char))))

/-- `UpNode`: `{ key, type, value }` — `type` is a plain string, empty when
the key token had no `!`. -/
structure UpNode where
  key : List Char
  type : List Char
  value : UpValue

/-- Index of the first whitespace character (`trimmed.search(/\s/)`;
`none` models `-1`). -/
def firstWsIdx : List Char → Option Nat
  | [] => none
  | c :: rest => if isJsWs c then some 0 else (firstWsIdx rest).map (· + 1)

/-- JS `s.lastIndexOf(ch)` (`none` models `-1`). -/
def lastIdxOf (ch : Char) (l : List Char) : Option Nat :=
  (firstIdxOf ch l.reverse).map (fun k => l.length - 1 - k)

/-- `UpParser.#parseInlineList`:
`line.substring(1, line.lastIndexOf(']')).trim()`, empty content giving
`[]`, otherwise split on `,` and trim.  JS `substring` clamps a negative
index to 0 and swaps its arguments when `start > end`, which the
`take`/`drop` below reproduces (`b` is the clamped `lastIndexOf` result). -/
def upParseInlineListL (line : List Char) : List (List Char) :=
  let b := (lastIdxOf ']' line).getD 0
  let content := jsTrim ((line.take (max 1 b)).drop (min 1 b))
  if content = [] then []
  else (jsSplitChar ',' content).map jsTrim

/-- `UpParser.#dedent`: remove `count` leading characters from every line
that has at least `count` characters. -/
def upDedent (text : List Char) (count : Nat) : List Char :=
  List.intercalate ['\n']
    ((jsSplitChar '\n' text).map (fun line =>
      if count ≤ line.length then line.drop count else line))

/-- The accumulation loop of `UpParser.#parseMultiline`: push every raw line
(blank lines included — this variant has no falsy-line check) until a line
trimming to three backticks (consumed) or end of input. -/
def upMultilineLoop (fuel : Nat) (lines : List (List Char)) (i : Nat)
    (acc : List (List Char)) : List (List Char) × Nat :=
  match fuel with
  | 0 => (acc, i)
  | fuel+1 =>
    if lines.length ≤ i then (acc, i)
    else
      let line := lines.getD i []
      if jsTrim line = "```".data then (acc, i + 1)
      else upMultilineLoop fuel lines (i + 1) (acc ++ [line])

/-- `UpParser.#parseMultiline`: join the collected lines with `'\n'`; when
the type annotation is a nonempty all-digit string, dedent by its value.
(The language hint after the opening fence is read but unused.) -/
def upParseMultilineF (fuel : Nat) (lines : List (List Char)) (i : Nat)
    (firstLine : List Char) (typeAnn : List Char) : UpValue × Nat :=
  let _langHint := jsTrim (firstLine.drop 3)
  let r := upMultilineLoop fuel lines i []
  let text := List.intercalate ['\n'] r.1
  let text :=
    if typeAnn ≠ [] ∧ typeAnn.all (fun c => c.isDigit) then
      upDedent text (typeAnn.foldl (fun a c => 10 * a + (c.toNat - 48)) 0)
    else text
  (.scalar text, r.2)

mutual

/-- `UpParser.#parseNodes`: loop over lines; consume the end delimiter when
one is given (JS also requires the delimiter string itself to be truthy);
skip blank and `#`-comment lines (there is no falsy-line break in this
variant); parse every other line and append the node. -/
def upParseNodesF (fuel : Nat) (lines : List (List Char)) (i : Nat)
    (endDelim : Option (List Char)) (acc : List UpNode) : List UpNode × Nat :=
  match fuel with
  | 0 => (acc, i)
  | fuel+1 =>
    if lines.length ≤ i then (acc, i)
    else
      let line := lines.getD i []
      let trimmed := jsTrim line
      let ed := endDelim.getD []
      if ed ≠ [] ∧ trimmed = ed then (acc, i + 1)
      else if trimmed = [] ∨ jsStartsWith ['#'] trimmed then
        upParseNodesF fuel lines (i + 1) endDelim acc
      else
        let r := upParseLineF fuel lines i line
        upParseNodesF fuel lines r.2 endDelim (acc ++ [r.1])
termination_by structural fuel

/-- `UpParser.#parseLine`: trim the line, split at the first whitespace into
key token and (trimmed) value part, split the key token at the first `!`
into key and type, advance the cursor past this line, then parse the
value. -/
def upParseLineF (fuel : Nat) (lines : List (List Char)) (i : Nat)
    (line : List Char) : UpNode × Nat :=
  match fuel with
  | 0 => (⟨[], [], .scalar []⟩, i + 1)
  | fuel+1 =>
    let trimmed := jsTrim line
    let kv :=
      match firstWsIdx trimmed with
      | none => (trimmed, ([] : List Char))
      | some idx => (trimmed.take idx, jsTrim (trimmed.drop idx))
    let kt :=
      match firstIdxOf '!' kv.1 with
      | none => (kv.1, ([] : List Char))
      | some bi => (kv.1.take bi, kv.1.drop (bi + 1))
    let r := upParseValueF fuel lines (i + 1) kv.2 kt.2
    (⟨kt.1, kt.2, r.1⟩, r.2)
termination_by structural fuel

/-- `UpParser.#parseValue`: multiline (```` ``` ```` prefix), block (`{`
exactly), list (`[` exactly), table (type annotation `table` and a `{`
prefix), else scalar — there is *no* inline-list branch in this variant. -/
def upParseValueF (fuel : Nat) (lines : List (List Char)) (i : Nat)
    (valuePart : List Char) (typeAnn : List Char) : UpValue × Nat :=
  match fuel with
  | 0 => (.scalar [], i)
  | fuel+1 =>
    if jsStartsWith ("```".data) valuePart then
      upParseMultilineF fuel lines i valuePart typeAnn
    else if valuePart = ['\x7b'] then
      upParseBlockF fuel lines i
    else if valuePart = ['['] then
      let r := upParseListF fuel lines i []
      (.ulist r.1, r.2)
    else if typeAnn = "table".data ∧ jsStartsWith ['\x7b'] valuePart then
      upParseTableF fuel lines i none none
    else
      (.scalar valuePart, i)
termination_by structural fuel

/-- `UpParser.#parseBlock`: parse nodes up to `}` and fold them into a JS
object (`block[node.key] = node.value`). -/
def upParseBlockF (fuel : Nat) (lines : List (List Char)) (i : Nat) :
    UpValue × Nat :=
  match fuel with
  | 0 => (.scalar [], i)
  | fuel+1 =>
    let r := upParseNodesF fuel lines i (some ['\x7d']) []
    (.block (r.1.foldl (fun b nd => insertJS nd.key nd.value b) []), r.2)
termination_by structural fuel

/-- `UpParser.#parseList`: `]` (trimmed) ends the list; blank/comment lines
are skipped; `{` starts a nested block; a trimmed line starting with `[` is
parsed as an inline list of scalar strings; anything else is a scalar. -/
def upParseListF (fuel : Nat) (lines : List (List Char)) (i : Nat)
    (acc : List UpValue) : List UpValue × Nat :=
  match fuel with
  | 0 => (acc, i)
  | fuel+1 =>
    if lines.length ≤ i then (acc, i)
    else
      let trimmed := jsTrim (lines.getD i [])
      if trimmed = [']'] then (acc, i + 1)
      else if trimmed = [] ∨ jsStartsWith ['#'] trimmed then
        upParseListF fuel lines (i + 1) acc
      else if trimmed = ['\x7b'] then
        let r := upParseBlockF fuel lines (i + 1)
        upParseListF fuel lines r.2 (acc ++ [r.1])
      else if jsStartsWith ['['] trimmed then
        upParseListF fuel lines (i + 1)
          (acc ++ [.ulist ((upParseInlineListL trimmed).map .scalar)])
      else
        upParseListF fuel lines (i + 1) (acc ++ [.scalar trimmed])
termination_by structural fuel

/-- `UpParser.#parseTable`: gather `columns` (an inline list on the same
line) and `rows` (a following block of inline lists) until `}`.  A line
matching neither prefix is never consumed — the JS loop then runs forever;
fuel exhaustion models that divergence. -/
def upParseTableF (fuel : Nat) (lines : List (List Char)) (i : Nat)
    (cols : Option (List (List Char))) (rows : Option (List (List (List Char)))) :
    UpValue × Nat :=
  match fuel with
  | 0 => (.table cols rows, i)
  | fuel+1 =>
    if lines.length ≤ i then (.table cols rows, i)
    else
      let trimmed := jsTrim (lines.getD i [])
      if trimmed = ['\x7d'] then (.table cols rows, i + 1)
      else if trimmed = [] ∨ jsStartsWith ['#'] trimmed then
        upParseTableF fuel lines (i + 1) cols rows
      else if jsStartsWith ("columns".data) trimmed then
        upParseTableF fuel lines (i + 1)
          (some (upParseInlineListL (jsTrim (trimmed.drop 7)))) rows
      else if jsStartsWith ("rows".data) trimmed then
        let r := upRowsF fuel lines (i + 1) []
        upParseTableF fuel lines r.2 cols (some r.1)
      else
        upParseTableF fuel lines i cols rows
termination_by structural fuel

/-- `UpParser.#parseBlockOfLists`: collect inline lists until `}`.  As in
`#parseTable`, a line matching no branch is never consumed (JS loops
forever; fuel exhaustion models the divergence). -/
def upRowsF (fuel : Nat) (lines : List (List Char)) (i : Nat)
    (acc : List (List (List Char))) : List (List (List Char)) × Nat :=
  match fuel with
  | 0 => (acc, i)
  | fuel+1 =>
    if lines.length ≤ i then (acc, i)
    else
      let trimmed := jsTrim (lines.getD i [])
      if trimmed = ['\x7d'] then (acc, i + 1)
      else if trimmed = [] ∨ jsStartsWith ['#'] trimmed then
        upRowsF fuel lines (i + 1) acc
      else if jsStartsWith ['['] trimmed then
        upRowsF fuel lines (i + 1) (acc ++ [upParseInlineListL trimmed])
      else
        upRowsF fuel lines i acc
termination_by structural fuel

end

/-- Entry fuel for the `UpParser` runs (same over-approximation as
`parseFuel`). -/
def upFuel (lines : List (List Char)) : Nat := 8 * lines.length + 16

/-- Run `UpParser.#parseNodes` from the start of a given line sequence. -/
def upParseLines (lines : List (List Char)) : List UpNode :=
  (upParseNodesF (upFuel lines) lines 0 none []).1

/-- `UpParser.parse`: split the input on `/\r?\n/` and parse all nodes. -/
def upParseL (input : List Char) : List UpNode :=
  upParseLines (splitRN input)

/-- `parse(input)` of the `UpParser` module. -/
def upParseS (input : String) : List UpNode :=
  upParseL input.data

end UpAlt

namespace UpLib

/-- Join string pieces with a single-character separator (used to *state*
claims about inputs built from pieces; the parsers themselves use
`List.intercalate`, which models JS `Array.prototype.join`). -/
def joinSep (sep : Char) : List (List Char) → List Char
  | [] => []
  | [x] => x
  | x :: y :: t => x ++ sep :: joinSep sep (y :: t)

/-- Fold a sequence of key/value assignments into a JS object starting from
the empty object — exactly the accumulation `block[node.key] = node.value`
performed by the block parsers. -/
def foldInsert {α : Type} (ps : List (List Char × α)) : List (List Char × α) :=
  ps.foldl (fun b p => insertJS p.1 p.2 b) []

end UpLib

namespace UpLib

theorem ltrim_nil : ltrim [] = [] := rfl

theorem ltrim_cons_ws {c : Char} (h : isJsWs c = true) (l : List Char) :
    ltrim (c :: l) = ltrim l := by
  simp [ltrim, List.dropWhile_cons, h]

theorem ltrim_cons_pos {c : Char} (h : isJsWs c = false) (l : List Char) :
    ltrim (c :: l) = c :: l := by
  simp [ltrim, List.dropWhile_cons, h]

theorem ltrim_append (a b : List Char) :
    ltrim (a ++ b) = if ltrim a = [] then ltrim b else ltrim a ++ b := by
  by_cases h : ltrim a = [] <;>
    simp_all [ltrim, List.dropWhile_append, List.isEmpty_iff]

theorem ltrim_idem (l : List Char) : ltrim (ltrim l) = ltrim l :=
  List.dropWhile_idempotent _ _

theorem ltrim_eq_nil_iff {l : List Char} :
    ltrim l = [] ↔ ∀ c ∈ l, isJsWs c = true := by
  simp [ltrim, List.dropWhile_eq_nil_iff]

theorem mem_of_mem_ltrim {c : Char} {l : List Char} (h : c ∈ ltrim l) : c ∈ l :=
  (List.dropWhile_sublist _).subset h

theorem rtrim_nil : rtrim [] = [] := by simp [rtrim]

theorem rtrim_concat_pos {c : Char} (h : isJsWs c = false) (l : List Char) :
    rtrim (l ++ [c]) = l ++ [c] := by
  simp [rtrim, List.rdropWhile_concat, h]

theorem rtrim_append (a b : List Char) :
    rtrim (a ++ b) = if rtrim b = [] then rtrim a else a ++ rtrim b := by
  by_cases h : rtrim b = []
  · have hb : List.dropWhile isJsWs b.reverse = [] := by
      have := congrArg List.reverse h
      simpa [rtrim, List.rdropWhile] using this
    simp [rtrim, List.rdropWhile, List.reverse_append, List.dropWhile_append, hb,
      List.isEmpty_iff, h]
  · have hb : ¬ List.dropWhile isJsWs b.reverse = [] := by
      intro hc
      exact h (by simp [rtrim, List.rdropWhile, hc])
    simp [rtrim, List.rdropWhile, List.reverse_append, List.dropWhile_append,
      List.isEmpty_iff, hb]

theorem rtrim_idem (l : List Char) : rtrim (rtrim l) = rtrim l :=
  List.rdropWhile_idempotent _ _

theorem rtrim_eq_nil_iff {l : List Char} :
    rtrim l = [] ↔ ∀ c ∈ l, isJsWs c = true := by
  simp [rtrim, List.rdropWhile_eq_nil_iff]

theorem rtrim_singleton (c : Char) :
    rtrim [c] = if isJsWs c then [] else [c] := by
  simp [rtrim, List.rdropWhile_singleton]

theorem rtrim_cons_pos {c : Char} (h : isJsWs c = false) (l : List Char) :
    rtrim (c :: l) = c :: rtrim l := by
  rw [show c :: l = [c] ++ l from rfl, rtrim_append]
  by_cases hb : rtrim l = []
  · rw [if_pos hb, hb, rtrim_singleton, if_neg (by simp [h])]
  · rw [if_neg hb]
    rfl

theorem rtrim_cons_ws {c : Char} (h : isJsWs c = true) {l : List Char}
    (hl : rtrim l = []) : rtrim (c :: l) = [] := by
  rw [show c :: l = [c] ++ l from rfl, rtrim_append, if_pos hl, rtrim_singleton,
    if_pos (by simp [h])]

theorem rtrim_cons_of_ne {c : Char} {l : List Char} (hl : rtrim l ≠ []) :
    rtrim (c :: l) = c :: rtrim l := by
  have := rtrim_append [c] l
  simpa [hl] using this

end UpLib

namespace UpLib

theorem ltrim_rtrim_comm (l : List Char) : ltrim (rtrim l) = rtrim (ltrim l) := by
  induction l with
  | nil => simp [rtrim_nil, ltrim_nil]
  | cons c l ih =>
    by_cases hc : isJsWs c = true
    · rw [ltrim_cons_ws hc]
      by_cases hb : rtrim l = []
      · rw [rtrim_cons_ws hc hb, ltrim_nil]
        have : ltrim l = [] :=
          ltrim_eq_nil_iff.mpr (rtrim_eq_nil_iff.mp hb)
        rw [this, rtrim_nil]
      · rw [rtrim_cons_of_ne hb, ltrim_cons_ws hc, ih]
    · have hc' : isJsWs c = false := by simpa using hc
      simp [rtrim_cons_pos hc', ltrim_cons_pos hc']

theorem jsTrim_nil : jsTrim [] = [] := rfl

theorem jsTrim_cons_ws {c : Char} (h : isJsWs c = true) (l : List Char) :
    jsTrim (c :: l) = jsTrim l := by
  simp [jsTrim, ltrim_cons_ws h]

theorem jsTrim_cons_pos {c : Char} (h : isJsWs c = false) (l : List Char) :
    jsTrim (c :: l) = c :: rtrim l := by
  simp [jsTrim, ltrim_cons_pos h, rtrim_cons_pos h]

theorem jsTrim_ltrim (l : List Char) : jsTrim (ltrim l) = jsTrim l := by
  simp [jsTrim, ltrim_idem]

theorem jsTrim_rtrim (l : List Char) : jsTrim (rtrim l) = jsTrim l := by
  unfold jsTrim
  rw [ltrim_rtrim_comm, rtrim_idem]

theorem jsTrim_idem (l : List Char) : jsTrim (jsTrim l) = jsTrim l := by
  unfold jsTrim
  rw [ltrim_rtrim_comm, ltrim_idem, rtrim_idem]

theorem jsTrim_eq_nil_iff {l : List Char} :
    jsTrim l = [] ↔ ∀ c ∈ l, isJsWs c = true := by
  constructor
  · intro h c hc
    have h2 : ∀ d ∈ ltrim l, isJsWs d = true := rtrim_eq_nil_iff.mp h
    have hsplit : c ∈ List.takeWhile isJsWs l ∨ c ∈ List.dropWhile isJsWs l := by
      rw [← List.mem_append, List.takeWhile_append_dropWhile]
      exact hc
    rcases hsplit with h3 | h3
    · exact List.mem_takeWhile_imp h3
    · exact h2 c h3
  · intro h
    have h1 : ltrim l = [] := ltrim_eq_nil_iff.mpr h
    simp [jsTrim, h1, rtrim_nil]

theorem mem_of_mem_rtrim {c : Char} {l : List Char} (h : c ∈ rtrim l) : c ∈ l := by
  have h1 : c ∈ List.dropWhile isJsWs l.reverse := by
    simpa [rtrim, List.rdropWhile] using h
  have h2 : c ∈ l.reverse := (List.dropWhile_sublist _).subset h1
  simpa using h2

theorem mem_of_mem_jsTrim {c : Char} {l : List Char} (h : c ∈ jsTrim l) : c ∈ l :=
  mem_of_mem_ltrim (mem_of_mem_rtrim h)

end UpLib

namespace UpLib

theorem jsStartsWith_append_self (p r : List Char) :
    jsStartsWith p (p ++ r) = true := by
  induction p with
  | nil => rfl
  | cons c cs ih => simp [jsStartsWith, ih]

theorem jsStartsWith_iff {p s : List Char} :
    jsStartsWith p s = true ↔ ∃ r, s = p ++ r := by
  constructor
  · intro h
    induction p generalizing s with
    | nil => exact ⟨s, rfl⟩
    | cons c cs ih =>
      cases s with
      | nil => simp [jsStartsWith] at h
      | cons d ds =>
        simp only [jsStartsWith, Bool.and_eq_true, decide_eq_true_eq] at h
        obtain ⟨r, hr⟩ := ih h.2
        exact ⟨r, by simp [h.1, hr]⟩
  · rintro ⟨r, rfl⟩
    exact jsStartsWith_append_self p r

theorem jsIncludes_colon_append {k : List Char} (h : ∀ c ∈ k, c ≠ ':') :
    jsIncludes ("://".data) (k ++ [':']) = false := by
  induction k with
  | nil => rfl
  | cons c rest ih =>
    have hc : c ≠ ':' := h c (List.mem_cons_self _ _)
    have hc' : (':' : Char) ≠ c := fun hh => hc hh.symm
    simp only [List.cons_append, jsIncludes, Bool.or_eq_false_iff]
    constructor
    · simp [jsStartsWith, String.data, hc']
    · exact ih (fun d hd => h d (List.mem_cons_of_mem _ hd))

theorem firstIdxOf_of_not_mem {ch : Char} {l : List Char} (h : ch ∉ l) :
    firstIdxOf ch l = none := by
  induction l with
  | nil => rfl
  | cons c rest ih =>
    have hc : ¬ c = ch := fun hh => h (hh ▸ List.mem_cons_self _ _)
    simp [firstIdxOf, hc, ih (fun hm => h (List.mem_cons_of_mem _ hm))]

theorem firstIdxOf_append {ch : Char} {a : List Char} (h : ch ∉ a) (b : List Char) :
    firstIdxOf ch (a ++ ch :: b) = some a.length := by
  induction a with
  | nil => simp [firstIdxOf]
  | cons c rest ih =>
    have hc : ¬ c = ch := fun hh => h (hh ▸ List.mem_cons_self _ _)
    simp [firstIdxOf, hc, ih (fun hm => h (List.mem_cons_of_mem _ hm))]

theorem jsSplitChar_ne_nil (sep : Char) (l : List Char) :
    jsSplitChar sep l ≠ [] := by
  cases l with
  | nil => simp [jsSplitChar]
  | cons c rest =>
    simp only [jsSplitChar]
    rcases h : jsSplitChar sep rest with _ | ⟨h1, t1⟩
    · simp
    · by_cases hc : c = sep <;> simp [hc]

theorem jsSplitChar_of_not_mem {sep : Char} {l : List Char} (h : sep ∉ l) :
    jsSplitChar sep l = [l] := by
  induction l with
  | nil => rfl
  | cons c rest ih =>
    have hc : ¬ c = sep := fun hh => h (hh ▸ List.mem_cons_self _ _)
    have ih' := ih (fun hm => h (List.mem_cons_of_mem _ hm))
    simp [jsSplitChar, ih', hc]

theorem jsSplitChar_sep_append {sep : Char} {x : List Char} (h : sep ∉ x)
    (rest : List Char) :
    jsSplitChar sep (x ++ sep :: rest) = x :: jsSplitChar sep rest := by
  induction x with
  | nil =>
    simp only [List.nil_append, jsSplitChar]
    rcases hr : jsSplitChar sep rest with _ | ⟨h1, t1⟩
    · exact absurd hr (jsSplitChar_ne_nil sep rest)
    · simp
  | cons c xs ih =>
    have hc : ¬ c = sep := fun hh => h (hh ▸ List.mem_cons_self _ _)
    have ih' := ih (fun hm => h (List.mem_cons_of_mem _ hm))
    simp only [List.cons_append, jsSplitChar, List.append_eq]
    rw [ih']
    simp [hc]

theorem jsSplitChar_joinSep {sep : Char} {xs : List (List Char)}
    (h : ∀ x ∈ xs, sep ∉ x) (hne : xs ≠ []) :
    jsSplitChar sep (joinSep sep xs) = xs := by
  induction xs with
  | nil => exact absurd rfl hne
  | cons x t ih =>
    cases t with
    | nil =>
      simp [joinSep, jsSplitChar_of_not_mem (h x (List.mem_cons_self _ _))]
    | cons y t' =>
      have hx : sep ∉ x := h x (List.mem_cons_self _ _)
      have ht : ∀ z ∈ y :: t', sep ∉ z := fun z hz => h z (List.mem_cons_of_mem _ hz)
      rw [joinSep, jsSplitChar_sep_append hx, ih ht (by simp)]

theorem mem_joinSep_of_mem {sep : Char} {xs : List (List Char)} {x : List Char}
    (hx : x ∈ xs) {c : Char} (hc : c ∈ x) : c ∈ joinSep sep xs := by
  induction xs with
  | nil => cases hx
  | cons z t ih =>
    cases t with
    | nil =>
      rcases List.mem_singleton.mp hx with rfl
      simpa [joinSep] using hc
    | cons y t' =>
      rcases List.mem_cons.mp hx with rfl | hx'
      · simp [joinSep, List.mem_append, hc]
      · simp [joinSep, List.mem_append, ih hx']

end UpLib

namespace UpLib

theorem stripTrailCR_cons {c : Char} (hc : c ≠ '\r') (h : List Char) :
    stripTrailCR (c :: h) = c :: stripTrailCR h := by
  cases h with
  | nil => simp [stripTrailCR, hc]
  | cons d t =>
    by_cases hl : (d :: t).getLast? = some '\r' <;>
      simp [stripTrailCR, List.getLast?_cons_cons, hl]

theorem splitRN_crlf {s : List Char} (h : '\r' ∉ s) :
    splitRN (crlfOf s) = splitRN s := by
  induction s with
  | nil => rfl
  | cons c rest ih =>
    have hcr : c ≠ '\r' := fun hh => h (hh ▸ List.mem_cons_self _ _)
    have hrest : '\r' ∉ rest := fun hm => h (List.mem_cons_of_mem _ hm)
    have ih' := ih hrest
    rcases hC : jsSplitChar '\n' (crlfOf rest) with _ | ⟨h1, t1⟩
    · exact absurd hC (jsSplitChar_ne_nil _ _)
    rcases hR : jsSplitChar '\n' rest with _ | ⟨h2, t2⟩
    · exact absurd hR (jsSplitChar_ne_nil _ _)
    have ihh : stripTrailCR h1 = stripTrailCR h2 ∧
        t1.map stripTrailCR = t2.map stripTrailCR := by
      have hmap := ih'
      simp only [splitRN, hC, hR, List.map_cons, List.cons.injEq] at hmap
      exact hmap
    have e3 : jsSplitChar '\n' ('\n' :: rest) = [] :: h2 :: t2 := by
      simp only [jsSplitChar]
      rw [hR]
      simp
    by_cases hc : c = '\n'
    · subst hc
      have e1 : crlfOf ('\n' :: rest) = '\r' :: '\n' :: crlfOf rest := by
        simp [crlfOf]
      have e2 : jsSplitChar '\n' ('\r' :: '\n' :: crlfOf rest) =
          ['\r'] :: h1 :: t1 := by
        simp only [jsSplitChar]
        rw [hC]
        simp
      simp only [splitRN, e1, e2, e3, List.map_cons]
      rw [show stripTrailCR ['\r'] = [] from rfl,
        show stripTrailCR [] = [] from rfl, ihh.1, ihh.2]
    · have e1 : crlfOf (c :: rest) = c :: crlfOf rest := by
        simp [crlfOf, hc]
      have e2 : jsSplitChar '\n' (c :: crlfOf rest) = (c :: h1) :: t1 := by
        simp only [jsSplitChar]
        rw [hC]
        simp [hc]
      have e4 : jsSplitChar '\n' (c :: rest) = (c :: h2) :: t2 := by
        simp only [jsSplitChar]
        rw [hR]
        simp [hc]
      simp only [splitRN, e1, e2, e4, List.map_cons]
      rw [stripTrailCR_cons hcr, stripTrailCR_cons hcr, ihh.1, ihh.2]

end UpLib

namespace UpLib

theorem insertJS_keys_mem {α : Type} {k : List Char} (v : α)
    {b : List (List Char × α)} (h : k ∈ b.map Prod.fst) :
    (insertJS k v b).map Prod.fst = b.map Prod.fst := by
  induction b with
  | nil => rw [List.map_nil] at h; exact absurd h (List.not_mem_nil k)
  | cons p rest ih =>
    by_cases hk : p.1 = k
    · simp [insertJS, hk]
    · have h' : k ∈ rest.map Prod.fst := by
        rw [List.map_cons] at h
        rcases List.mem_cons.mp h with h0 | h0
        · exact absurd h0.symm hk
        · exact h0
      simp [insertJS, hk, ih h']

theorem insertJS_keys_not_mem {α : Type} {k : List Char} (v : α)
    {b : List (List Char × α)} (h : k ∉ b.map Prod.fst) :
    (insertJS k v b).map Prod.fst = b.map Prod.fst ++ [k] := by
  induction b with
  | nil => simp [insertJS]
  | cons p rest ih =>
    have hk : ¬ p.1 = k := fun hh => h (by rw [List.map_cons, hh]; exact List.mem_cons_self _ _)
    have h' : k ∉ rest.map Prod.fst := fun hm => h (by rw [List.map_cons]; exact List.mem_cons_of_mem _ hm)
    simp [insertJS, hk, ih h']

theorem lookupAL_insert_self {α : Type} (k : List Char) (v : α)
    (b : List (List Char × α)) : lookupAL k (insertJS k v b) = some v := by
  induction b with
  | nil => simp [insertJS, lookupAL]
  | cons p rest ih =>
    by_cases hk : p.1 = k <;> simp [insertJS, lookupAL, hk, ih]

theorem lookupAL_insert_ne {α : Type} {k k' : List Char} (h : k' ≠ k) (v : α)
    (b : List (List Char × α)) :
    lookupAL k (insertJS k' v b) = lookupAL k b := by
  induction b with
  | nil => simp [insertJS, lookupAL, h]
  | cons p rest ih =>
    by_cases hk : p.1 = k'
    · have hne : ¬ p.1 = k := fun hh => h (hk.symm.trans hh)
      rw [insertJS, if_pos hk, lookupAL, lookupAL, if_neg hne, if_neg hne]
    · rw [insertJS, if_neg hk, lookupAL, lookupAL, ih]

theorem newKeys_congr {s₁ s₂ : List (List Char)}
    (h : ∀ x, x ∈ s₁ ↔ x ∈ s₂) (l : List (List Char)) :
    newKeys s₁ l = newKeys s₂ l := by
  induction l generalizing s₁ s₂ with
  | nil => rfl
  | cons k rest ih =>
    by_cases hk : k ∈ s₁
    · rw [newKeys, if_pos hk, newKeys, if_pos ((h k).mp hk), ih h]
    · have hk2 : k ∉ s₂ := fun hh => hk ((h k).mpr hh)
      have h' : ∀ x, x ∈ k :: s₁ ↔ x ∈ k :: s₂ := by
        intro x
        simp [h x]
      rw [newKeys, if_neg hk, newKeys, if_neg hk2, ih h']

theorem keys_foldl_insert {α : Type} (ps : List (List Char × α)) :
    ∀ b : List (List Char × α),
      ((ps.foldl (fun b p => insertJS p.1 p.2 b) b).map Prod.fst) =
        b.map Prod.fst ++ newKeys (b.map Prod.fst) (ps.map Prod.fst) := by
  induction ps with
  | nil =>
    intro b
    rw [List.foldl_nil, List.map_nil,
      show newKeys (b.map Prod.fst) [] = [] from rfl, List.append_nil]
  | cons p rest ih =>
    intro b
    by_cases hk : p.1 ∈ b.map Prod.fst
    · rw [List.foldl_cons, ih, insertJS_keys_mem p.2 hk, List.map_cons, newKeys,
        if_pos hk]
    · have hkeys := insertJS_keys_not_mem p.2 hk
      have hcongr : newKeys (b.map Prod.fst ++ [p.1]) (rest.map Prod.fst) =
          newKeys (p.1 :: b.map Prod.fst) (rest.map Prod.fst) := by
        apply newKeys_congr
        intro x
        rw [List.mem_append, List.mem_singleton, List.mem_cons]
        exact or_comm
      rw [List.foldl_cons, ih, hkeys, List.map_cons, newKeys, if_neg hk, hcongr,
        List.append_assoc, List.singleton_append]

theorem lookup_foldl_insert {α : Type} (ps : List (List Char × α)) (k : List Char) :
    ∀ b : List (List Char × α),
      lookupAL k (ps.foldl (fun b p => insertJS p.1 p.2 b) b) =
        match lastVal k ps with
        | some v => some v
        | none => lookupAL k b := by
  induction ps with
  | nil => intro b; simp [lastVal]
  | cons p rest ih =>
    intro b
    simp only [List.foldl_cons, ih, lastVal]
    rcases h : lastVal k rest with _ | v
    · by_cases hk : p.1 = k
      · subst hk
        simp [lookupAL_insert_self]
      · simp [hk, lookupAL_insert_ne hk]
    · rfl

theorem newKeys_count (k : List Char) (l : List (List Char)) :
    ∀ seen : List (List Char),
      (newKeys seen l).count k = if k ∈ l ∧ k ∉ seen then 1 else 0 := by
  induction l with
  | nil => intro seen; simp [newKeys]
  | cons x rest ih =>
    intro seen
    by_cases hx : x ∈ seen
    · rw [newKeys, if_pos hx, ih seen]
      by_cases hk : k = x
      · subst hk
        simp [hx]
      · simp [List.mem_cons, hk]
    · rw [newKeys, if_neg hx]
      by_cases hk : k = x
      · subst hk
        rw [List.count_cons_self, ih (k :: seen)]
        simp [hx]
      · rw [List.count_cons_of_ne hk, ih (x :: seen)]
        by_cases hmem : k ∈ rest <;> by_cases hseen : k ∈ seen <;>
          simp [List.mem_cons, hk, hmem, hseen]

theorem lastVal_isSome_of_mem {α : Type} {k : List Char}
    {ps : List (List Char × α)} (h : k ∈ ps.map Prod.fst) :
    (lastVal k ps).isSome := by
  induction ps with
  | nil => rw [List.map_nil] at h; exact absurd h (List.not_mem_nil k)
  | cons p rest ih =>
    have h' : k = p.1 ∨ k ∈ rest.map Prod.fst := by
      rw [List.map_cons] at h
      exact List.mem_cons.mp h
    rw [lastVal]
    rcases hl : lastVal k rest with _ | v
    · rcases h' with h0 | h0
      · simp [h0.symm]
      · have := ih h0
        rw [hl] at this
        exact absurd this (by simp)
    · simp

end UpLib

namespace UpLib

theorem jsTrim_hash (v w : List Char) :
    jsTrim (v ++ '#' :: w) = ltrim v ++ '#' :: rtrim w := by
  unfold jsTrim
  rw [ltrim_append]
  by_cases h : ltrim v = []
  · rw [if_pos h, h, ltrim_cons_pos (by decide), List.nil_append,
      rtrim_cons_pos (by decide)]
  · rw [if_neg h,
      show ltrim v ++ '#' :: w = (ltrim v ++ ['#']) ++ w by simp, rtrim_append]
    by_cases hw : rtrim w = []
    · rw [if_pos hw, hw, rtrim_concat_pos (by decide)]
    · rw [if_neg hw]
      simp

end UpLib

namespace UpTS

open UpLib

theorem jsMatchSplit_append {K t : List Char} (hK : K ≠ [])
    (hnws : ∀ c ∈ K, isJsWs c = false) {w : Char} (hw : isJsWs w = true) :
    jsMatchSplit (K ++ w :: t) =
      if (ltrim t).any (fun d => d == '\r' || d == '\n') then none
      else some (K, ltrim t) := by
  cases K with
  | nil => exact absurd rfl hK
  | cons c K' =>
    have hc : isJsWs c = false := hnws c (List.mem_cons_self _ _)
    rw [List.cons_append, jsMatchSplit]
    rw [show c :: (K' ++ w :: t) = (c :: K') ++ (w :: t) from rfl]
    rw [List.takeWhile_append_of_pos (by intro a ha; simp [hnws a ha]),
      List.dropWhile_append_of_pos (by intro a ha; simp [hnws a ha])]
    rw [List.takeWhile_cons, List.dropWhile_cons]
    simp only [hw, Bool.not_true, if_neg (by simp [hc] : ¬ isJsWs c = true),
      Bool.false_eq_true, if_false, List.append_nil, ltrim]
    rw [List.dropWhile_cons, if_pos hw]

theorem splitKeyValue_hash {k v w : List Char}
    (hknws : ∀ c ∈ k, isJsWs c = false) (hkc : ':' ∉ k)
    (hv : '#' ∉ v) (hvr : '\r' ∉ v) (hvn : '\n' ∉ v)
    (hwr : '\r' ∉ w) (hwn : '\n' ∉ w) :
    splitKeyValue (k ++ ':' :: ' ' :: (v ++ '#' :: w)) =
      (k, stripSurroundingQuotes (jsTrim v), true) := by
  have hline : k ++ ':' :: ' ' :: (v ++ '#' :: w) =
      (k ++ [':']) ++ ' ' :: (v ++ '#' :: w) := by simp
  have hKne : k ++ [':'] ≠ [] := by simp
  have hKnws : ∀ c ∈ k ++ [':'], isJsWs c = false := by
    intro c hc
    rcases List.mem_append.mp hc with h1 | h1
    · exact hknws c h1
    · rcases List.mem_singleton.mp h1 with rfl
      decide
  have hany : ((ltrim (v ++ '#' :: w)).any
      (fun d => d == '\r' || d == '\n')) = false := by
    rw [List.any_eq_false]
    intro d hd
    have hdm : d ∈ v ++ '#' :: w := mem_of_mem_ltrim hd
    have hdr : d ≠ '\r' := by
      rcases List.mem_append.mp hdm with h1 | h1
      · exact fun he => hvr (he ▸ h1)
      · rcases List.mem_cons.mp h1 with rfl | h2
        · decide
        · exact fun he => hwr (he ▸ h2)
    have hdn : d ≠ '\n' := by
      rcases List.mem_append.mp hdm with h1 | h1
      · exact fun he => hvn (he ▸ h1)
      · rcases List.mem_cons.mp h1 with rfl | h2
        · decide
        · exact fun he => hwn (he ▸ h2)
    simp [hdr, hdn]
  have hmatch : jsMatchSplit (k ++ ':' :: ' ' :: (v ++ '#' :: w)) =
      some (k ++ [':'], ltrim (v ++ '#' :: w)) := by
    rw [hline, jsMatchSplit_append hKne hKnws (by decide)]
    rw [if_neg (by simp [hany])]
  have hcol : (k ++ [':']).getLast? = some ':' := List.getLast?_concat _
  have hinc : jsIncludes ("://".data) (k ++ [':']) = false :=
    jsIncludes_colon_append (fun c hc he => hkc (he ▸ hc))
  have hnotin : '#' ∉ ltrim v := fun hm => hv (mem_of_mem_ltrim hm)
  have hidx : firstIdxOf '#' (ltrim v ++ '#' :: rtrim w) =
      some (ltrim v).length := firstIdxOf_append hnotin _
  simp only [splitKeyValue, hmatch, if_pos (And.intro hcol hinc),
    List.dropLast_concat, jsTrim_ltrim, jsTrim_hash, hidx, List.take_left]

theorem parseLineF_quoted {fuel : Nat} {lines : List (List Char)} {i : Nat}
    {k rest : List Char}
    (hline : lines.getD i [] = k ++ '!' :: ("quoted".data ++ ' ' :: rest))
    (hknws : ∀ c ∈ k, isJsWs c = false) (hkb : '!' ∉ k)
    (hrr : '\r' ∉ rest) (hrn : '\n' ∉ rest) :
    parseLineF (fuel + 1) lines i =
      (⟨k, some ("string".data),
        .scalar (
          if (stripSurroundingQuotes (ltrim rest)).head? = some '"' ∧
              (stripSurroundingQuotes (ltrim rest)).getLast? = some '"' then
            stripSurroundingQuotes (ltrim rest)
          else '"' :: (stripSurroundingQuotes (ltrim rest) ++ ['"']))⟩, i + 1) := by
  have hline2 : k ++ '!' :: ("quoted".data ++ ' ' :: rest) =
      (k ++ '!' :: "quoted".data) ++ ' ' :: rest := by simp
  have hKne : k ++ '!' :: "quoted".data ≠ [] := by simp
  have hKnws : ∀ c ∈ k ++ '!' :: "quoted".data, isJsWs c = false := by
    intro c hc
    rcases List.mem_append.mp hc with h1 | h1
    · exact hknws c h1
    · have hq : ∀ d ∈ ('!' :: "quoted".data), isJsWs d = false := by decide
      exact hq c h1
  have hany : ((ltrim rest).any (fun d => d == '\r' || d == '\n')) = false := by
    rw [List.any_eq_false]
    intro d hd
    have hdm : d ∈ rest := mem_of_mem_ltrim hd
    have hdr : d ≠ '\r' := fun he => hrr (he ▸ hdm)
    have hdn : d ≠ '\n' := fun he => hrn (he ▸ hdm)
    simp [hdr, hdn]
  have hmatch : jsMatchSplit (k ++ '!' :: ("quoted".data ++ ' ' :: rest)) =
      some (k ++ '!' :: "quoted".data, ltrim rest) := by
    rw [hline2, jsMatchSplit_append hKne hKnws (by decide)]
    rw [if_neg (by simp [hany])]
  have hlast : (k ++ '!' :: "quoted".data).getLast? = some 'd' := by
    rw [List.getLast?_append]
    rfl
  have hsplit : splitKeyValue (k ++ '!' :: ("quoted".data ++ ' ' :: rest)) =
      (k ++ '!' :: "quoted".data, stripSurroundingQuotes (ltrim rest), false) := by
    simp only [splitKeyValue, hmatch]
    rw [if_neg]
    intro hcond
    rw [hlast] at hcond
    exact absurd hcond.1 (by decide)
  have hidx : firstIdxOf '!' (k ++ '!' :: "quoted".data) = some k.length :=
    firstIdxOf_append hkb _
  have hdrop : (k ++ '!' :: "quoted".data).drop (k.length + 1) = "quoted".data := by
    rw [show k ++ '!' :: "quoted".data = (k ++ ['!']) ++ "quoted".data by simp]
    exact List.drop_left' (by simp)
  have hkt : parseKeyAndType (k ++ '!' :: "quoted".data) =
      (k, some ("quoted".data)) := by
    simp only [parseKeyAndType, hidx, List.take_left, hdrop]
  simp only [parseLineF, hline, hsplit, hkt, if_pos rfl, if_true]

theorem getD_mem_of_lt {lines : List (List Char)} {i : Nat}
    (h : i < lines.length) : lines.getD i [] ∈ lines := by
  rw [List.getD_eq_getElem?_getD, List.getElem?_eq_getElem h]
  exact List.getElem_mem h

theorem parseUseDirectiveM_error {line : List Char}
    (harg : jsStartsWith ['['] (jsTrim ((jsTrim line).drop 4)) = false) :
    parseUseDirectiveM (jsTrim line) = .error useMsg := by
  simp only [parseUseDirectiveM, jsTrim_idem]
  rw [if_neg (by simp [harg])]

theorem parseDocumentF_use_error {fuel : Nat} {lines : List (List Char)} {i : Nat}
    {acc : List Node} (hi : i < lines.length)
    (huse : jsStartsWith ("!use".data) (jsTrim (lines.getD i [])) = true)
    (harg : jsStartsWith ['['] (jsTrim ((jsTrim (lines.getD i [])).drop 4)) = false) :
    parseDocumentF (fuel + 1) lines i acc = .error useMsg := by
  obtain ⟨r, hr⟩ := jsStartsWith_iff.mp huse
  have hlne : lines.getD i [] ≠ [] := by
    intro h0
    rw [h0, jsTrim_nil] at hr
    simp at hr
  have htne : jsTrim (lines.getD i []) ≠ [] := by
    rw [hr]
    simp
  have hhash : jsStartsWith ['#'] (jsTrim (lines.getD i [])) = false := by
    rw [hr, show ("!use".data ++ r) = '!' :: ("use".data ++ r) from rfl]
    rfl
  have hdir := parseUseDirectiveM_error harg
  simp only [parseDocumentF]
  rw [if_neg (by omega : ¬ lines.length ≤ i), if_neg hlne,
    if_neg (not_or.mpr ⟨htne, fun hc => by
      rw [hhash] at hc
      exact absurd hc (by decide)⟩), if_pos huse, hdir]

theorem jsTrim_use_line (arg : List Char) :
    jsTrim ("!use ".data ++ arg) = "!use".data ++ rtrim (' ' :: arg) := by
  rw [show "!use ".data ++ arg = '!' :: ("use ".data ++ arg) from rfl, jsTrim,
    ltrim_cons_pos (by decide),
    show '!' :: ("use ".data ++ arg) = "!use".data ++ (' ' :: arg) from rfl,
    rtrim_append]
  by_cases h : rtrim (' ' :: arg) = []
  · rw [if_pos h, h, List.append_nil]
    decide
  · rw [if_neg h]

theorem parseDocumentF_succ (fuel : Nat) (lines : List (List Char)) (i : Nat)
    (acc : List Node) :
    parseDocumentF (fuel + 1) lines i acc =
      if lines.length ≤ i then .ok acc
      else if lines.getD i [] = [] then parseDocumentF fuel lines (i + 1) acc
      else if jsTrim (lines.getD i []) = [] ∨
          jsStartsWith ['#'] (jsTrim (lines.getD i [])) then
        parseDocumentF fuel lines (i + 1) acc
      else if jsStartsWith ("!use".data) (jsTrim (lines.getD i [])) then
        match parseUseDirectiveM (jsTrim (lines.getD i [])) with
        | .ok nd => parseDocumentF fuel lines (i + 1) (acc ++ [nd])
        | .error e => .error e
      else if jsStartsWith ("!lint".data) (jsTrim (lines.getD i [])) then
        match parseLintDirectiveM fuel lines i with
        | .ok r => parseDocumentF fuel lines r.2 (acc ++ [r.1])
        | .error e => .error e
      else
        parseDocumentF fuel lines (parseLineF fuel lines i).2
          (acc ++ [(parseLineF fuel lines i).1]) := rfl

theorem parseDocumentL_use (arg : List Char) (h : '\n' ∉ arg) :
    parseDocumentL ("!use ".data ++ arg) =
      if jsStartsWith ['['] (jsTrim arg) then
        .ok [⟨"_use".data, some ("directive".data),
          .use (parseInlineListL (jsTrim arg))⟩]
      else .error useMsg := by
  have hnl : '\n' ∉ ("!use ".data ++ arg) := by
    intro hm
    rcases List.mem_append.mp hm with h1 | h1
    · exact absurd h1 (by decide)
    · exact h h1
  have hsplit : splitLF ("!use ".data ++ arg) = ["!use ".data ++ arg] :=
    jsSplitChar_of_not_mem hnl
  have htrim := jsTrim_use_line arg
  have hlne : "!use ".data ++ arg ≠ [] := by
    rw [show "!use ".data ++ arg = '!' :: ("use ".data ++ arg) from rfl]
    simp
  have htne : jsTrim ("!use ".data ++ arg) ≠ [] := by
    rw [htrim]
    simp
  have hhash : ¬ jsStartsWith ['#'] (jsTrim ("!use ".data ++ arg)) = true := by
    rw [htrim,
      show jsStartsWith ['#'] ("!use".data ++ rtrim (' ' :: arg)) = false from rfl]
    decide
  have huse : jsStartsWith ("!use".data) (jsTrim ("!use ".data ++ arg)) = true := by
    rw [htrim]
    exact jsStartsWith_append_self _ _
  have hcontent : jsTrim ((jsTrim ("!use ".data ++ arg)).drop 4) = jsTrim arg := by
    rw [htrim, List.drop_left' (show ("!use".data).length = 4 from rfl),
      jsTrim_rtrim, jsTrim_cons_ws (by decide)]
  have hdir : parseUseDirectiveM (jsTrim ("!use ".data ++ arg)) =
      if jsStartsWith ['['] (jsTrim arg) then
        .ok ⟨"_use".data, some ("directive".data),
          .use (parseInlineListL (jsTrim arg))⟩
      else .error useMsg := by
    simp only [parseUseDirectiveM, jsTrim_idem, hcontent]
  simp only [parseDocumentL]
  rw [hsplit]
  rw [show parseFuel ["!use ".data ++ arg] = 23 + 1 from rfl]
  rw [parseDocumentF_succ, List.getD_cons_zero]
  rw [if_neg (by simp : ¬ ([("!use ".data ++ arg)].length ≤ 0)), if_neg hlne,
    if_neg (not_or.mpr ⟨htne, hhash⟩), if_pos huse, hdir]
  by_cases hS : jsStartsWith ['['] (jsTrim arg) = true
  · rw [if_pos hS]
    show parseDocumentF (22 + 1) ["!use ".data ++ arg] (0 + 1)
      ([] ++ [⟨"_use".data, some ("directive".data),
        .use (parseInlineListL (jsTrim arg))⟩]) = _
    rw [parseDocumentF_succ,
      if_pos (by simp : [("!use ".data ++ arg)].length ≤ 0 + 1), if_pos hS]
    rfl
  · rw [if_neg hS, if_neg hS]

theorem parseDocumentF_no_directives (fuel : Nat) :
    ∀ (lines : List (List Char)) (i : Nat) (acc : List Node),
      (∀ l ∈ lines, jsStartsWith ("!use".data) (jsTrim l) = false ∧
        jsStartsWith ("!lint".data) (jsTrim l) = false) →
      ∃ ns, parseDocumentF fuel lines i acc = .ok ns := by
  induction fuel with
  | zero =>
    intro lines i acc h
    exact ⟨acc, rfl⟩
  | succ fuel ih =>
    intro lines i acc h
    rw [parseDocumentF_succ]
    by_cases h1 : lines.length ≤ i
    · rw [if_pos h1]
      exact ⟨acc, rfl⟩
    · rw [if_neg h1]
      have hmem : lines.getD i [] ∈ lines := getD_mem_of_lt (by omega)
      have huse := (h _ hmem).1
      have hlint := (h _ hmem).2
      by_cases h2 : lines.getD i [] = []
      · rw [if_pos h2]
        exact ih lines (i + 1) acc h
      · rw [if_neg h2]
        by_cases h3 : jsTrim (lines.getD i []) = [] ∨
            jsStartsWith ['#'] (jsTrim (lines.getD i [])) = true
        · rw [if_pos h3]
          exact ih lines (i + 1) acc h
        · rw [if_neg h3,
            if_neg (show ¬ jsStartsWith ("!use".data)
              (jsTrim (lines.getD i [])) = true by rw [huse]; decide),
            if_neg (show ¬ jsStartsWith ("!lint".data)
              (jsTrim (lines.getD i [])) = true by rw [hlint]; decide)]
          exact ih lines _ _ h

theorem parseInlineListL_joinSep {xs : List (List Char)}
    (hc : ∀ x ∈ xs, ',' ∉ x) (hne : ∃ x ∈ xs, jsTrim x ≠ []) :
    parseInlineListL ('[' :: (joinSep ',' xs ++ [']'])) = xs.map jsTrim := by
  obtain ⟨x0, hx0, hx0t⟩ := hne
  have hxs : xs ≠ [] := by
    intro h
    subst h
    cases hx0
  have htrim : jsTrim ('[' :: (joinSep ',' xs ++ [']'])) =
      '[' :: (joinSep ',' xs ++ [']']) := by
    rw [jsTrim_cons_pos (by decide), rtrim_concat_pos (by decide)]
  have hc0 : ∃ c ∈ joinSep ',' xs, isJsWs c = false := by
    obtain ⟨c, hcx, hcw⟩ : ∃ c ∈ x0, isJsWs c = false := by
      by_contra hall
      push_neg at hall
      exact hx0t (jsTrim_eq_nil_iff.mpr (fun c hc2 => by
        have := hall c hc2
        simpa using this))
    exact ⟨c, mem_joinSep_of_mem hx0 hcx, hcw⟩
  have hnt : jsTrim (joinSep ',' xs) ≠ [] := by
    intro h0
    obtain ⟨c, hcm, hcw⟩ := hc0
    rw [jsTrim_eq_nil_iff] at h0
    rw [h0 c hcm] at hcw
    cases hcw
  simp only [parseInlineListL, htrim, List.drop_one, List.tail_cons,
    List.dropLast_concat]
  rw [if_neg hnt, jsSplitChar_joinSep hc hxs]

end UpTS

open UpLib

/-- C1: evaluation of both parser variants at the failing input.  The claim
says a blank line inside a block body is skipped and `"a {\nb c\n\nd e\n}"`
yields a single node `a` whose block holds both `b` and `d`.  The `Parser`
variant (`up.ts` and `part_000` module 1) instead *ends the block* at the
empty line (`if (!line) break;`, contradicting its own "Skip empty lines and
comments" comment two lines below), producing three top-level nodes — `a`
with block `{b: "c"}`, then `d`, then a stray `}` node; the sibling
`UpParser` variant implements the claimed behaviour. -/
theorem claim_C1_blank_line_in_block :
    UpTS.parseS "a \x7b\nb c\n\nd e\n\x7d" =
      .ok ⟨[⟨"a".data, none, .block [("b".data, .scalar "c".data)]⟩,
            ⟨"d".data, none, .scalar "e".data⟩,
            ⟨"\x7d".data, none, .scalar "".data⟩]⟩ ∧
    UpAlt.upParseS "a \x7b\nb c\n\nd e\n\x7d" =
      [⟨"a".data, "".data,
        .block [("b".data, .scalar "c".data), ("d".data, .scalar "e".data)]⟩] :=
  ⟨by rfl, by rfl⟩

/-- C2: evaluation of both parser variants at the failing input.  The claim
says every line between the fences is appended verbatim, blank lines
included, and joined with line feeds.  In the `Parser` variant the
`if (!line) break;` inside `#parseMultiline` *terminates the accumulation*
at the first empty line (which is not consumed), so `"k ```\na\n\nb\n```"`
yields the value `"a"` and the later lines become separate top-level nodes
(`b` and a stray backtick-fence node); the sibling `UpParser` variant
preserves the blank line and yields the single value `"a\n\nb"`. -/
theorem claim_C2_multiline_blank_line :
    UpTS.parseS "k ```\na\n\nb\n```" =
      .ok ⟨[⟨"k".data, none, .scalar "a".data⟩,
            ⟨"b".data, none, .scalar "".data⟩,
            ⟨"```".data, none, .scalar "".data⟩]⟩ ∧
    UpAlt.upParseS "k ```\na\n\nb\n```" =
      [⟨"k".data, "".data, .scalar "a\n\nb".data⟩] :=
  ⟨by rfl, by rfl⟩

/-- C3 (counterexample): the claim says every parse splits on line feed
while tolerating a preceding carriage return, so CRLF and LF inputs parse
identically.  `Parser.parseDocument` (`up.ts`/`part_000` module 1) splits on
`'\n'` alone: on `"a b\r\nc d"` the stray `'\r'` makes the header regex
`^(\S+)\s*(.*)$` fail (JS `.` does not match `'\r'`), so the whole trimmed
line `"a b"` becomes the key with an empty value — a different document from
the LF input's key `"a"` / value `"b"`. -/
theorem claim_C3_counterexample :
    UpTS.parseS "a b\r\nc d" =
      .ok ⟨[⟨"a b".data, none, .scalar "".data⟩,
            ⟨"c".data, none, .scalar "d".data⟩]⟩ ∧
    UpTS.parseS "a b\nc d" =
      .ok ⟨[⟨"a".data, none, .scalar "b".data⟩,
            ⟨"c".data, none, .scalar "d".data⟩]⟩ ∧
    UpTS.parseS "a b\r\nc d" ≠ UpTS.parseS "a b\nc d" := by
  refine ⟨by rfl, by rfl, ?_⟩
  intro h
  have h1 : UpTS.parseS "a b\r\nc d" =
      .ok ⟨[⟨"a b".data, none, .scalar "".data⟩,
            ⟨"c".data, none, .scalar "d".data⟩]⟩ := by rfl
  have h2 : UpTS.parseS "a b\nc d" =
      .ok ⟨[⟨"a".data, none, .scalar "b".data⟩,
            ⟨"c".data, none, .scalar "d".data⟩]⟩ := by rfl
  have hD := Except.ok.inj ((h1.symm.trans h).trans h2)
  have := congrArg (fun d => d.nodes.map (fun n => n.key)) hD
  exact absurd this (by decide)

/-- C3 (amended): `UpParser.parse` splits on `/\r?\n/`, so for any text
without a lone carriage return the CRLF form of the input parses to exactly
the same node list as the LF form; `Parser.parseDocument` of `up.ts` splits
on `'\n'` alone and may parse a CRLF input differently (see the
counterexample). -/
theorem claim_C3_amended (s : List Char) (h : '\r' ∉ s) :
    UpAlt.upParseL (crlfOf s) = UpAlt.upParseL s := by
  unfold UpAlt.upParseL
  rw [splitRN_crlf h]

/-- Witness for C3 (amended) at the concrete LF text `"a b\nc d"`, whose
CRLF form is `"a b\r\nc d"`. -/
theorem claim_C3_amended_witness :
    ('\r' ∉ "a b\nc d".data) ∧
    crlfOf "a b\nc d".data = "a b\r\nc d".data ∧
    UpAlt.upParseL (crlfOf "a b\nc d".data) = UpAlt.upParseL "a b\nc d".data :=
  ⟨by decide, by decide, claim_C3_amended "a b\nc d".data (by decide)⟩

/-- C4 (counterexample): the claim says a `#` inside a double-quoted
remainder is not treated as a comment start, so `title: "a # b"` keeps the
full quoted text.  The code truncates at the *first* `#` unconditionally
(`valPart.indexOf('#')` is not quote-aware), so the node's value is the
mangled `"a` (an unmatched opening quote followed by `a`), not the quoted
text `a # b` in either form. -/
theorem claim_C4_counterexample :
    UpTS.parseS "title: \"a # b\"" =
      .ok ⟨[⟨"title".data, none, .scalar "\"a".data⟩]⟩ ∧
    "\"a".data ≠ "a # b".data ∧ "\"a".data ≠ "\"a # b\"".data :=
  ⟨by rfl, by decide, by decide⟩

/-- C4 (amended): in line-oriented mode the value remainder is truncated at
the first `#` character *regardless of quoting*: for a key of non-whitespace
characters containing no colon, and any remainder split as `v#w` at its
first `#` (no carriage return or line feed inside), the resulting value part
is `v` trimmed and stripped of one pair of surrounding quotes — the part
after `#` is discarded even when the `#` sits inside double quotes. -/
theorem claim_C4_amended (k v w : List Char)
    (h1 : ∀ c ∈ k, isJsWs c = false) (h2 : ':' ∉ k) (h3 : '#' ∉ v)
    (h4 : '\r' ∉ v) (h5 : '\n' ∉ v) (h6 : '\r' ∉ w) (h7 : '\n' ∉ w) :
    UpTS.splitKeyValue (k ++ ':' :: ' ' :: (v ++ '#' :: w)) =
      (k, UpTS.stripSurroundingQuotes (jsTrim v), true) :=
  UpTS.splitKeyValue_hash h1 h2 h3 h4 h5 h6 h7

/-- Witness for C4 (amended) at the claim's own input `title: "a # b"`
(`k = "title"`, `v = "\"a "`, `w = " b\""`): the computed value part is the
mangled `"a`. -/
theorem claim_C4_amended_witness :
    ("title".data ++ ':' :: ' ' :: ("\"a ".data ++ '#' :: " b\"".data)) =
      "title: \"a # b\"".data ∧
    UpTS.splitKeyValue ("title".data ++ ':' :: ' ' :: ("\"a ".data ++ '#' :: " b\"".data)) =
      ("title".data, UpTS.stripSurroundingQuotes (jsTrim "\"a ".data), true) ∧
    UpTS.stripSurroundingQuotes (jsTrim "\"a ".data) = "\"a".data :=
  ⟨by decide,
   claim_C4_amended "title".data "\"a ".data " b\"".data (by decide) (by decide)
     (by decide) (by decide) (by decide) (by decide) (by decide),
   by decide⟩

/-- C5: parsing never fails on inputs without directive lines — in this
code the only `throw` sites are the two directive parsers, and structural
parsers simply stop at end of input — so in particular an input whose final
block is unterminated yields the document accumulated so far.  The concrete
conjunct is the claim's example: `"a {\nb c"` parses to the single node `a`
with block `{b: "c"}`. -/
theorem claim_C5_unterminated_block_ok :
    (∀ input : String,
      (∀ l ∈ splitLF input.data,
        jsStartsWith ("!use".data) (jsTrim l) = false ∧
        jsStartsWith ("!lint".data) (jsTrim l) = false) →
      ∃ d, UpTS.parseS input = .ok d) ∧
    UpTS.parseS "a \x7b\nb c" =
      .ok ⟨[⟨"a".data, none, .block [("b".data, .scalar "c".data)]⟩]⟩ := by
  constructor
  · intro input h
    obtain ⟨ns, hns⟩ := UpTS.parseDocumentF_no_directives
      (UpTS.parseFuel (splitLF input.data)) (splitLF input.data) 0 [] h
    refine ⟨⟨ns⟩, ?_⟩
    simp only [UpTS.parseS, UpTS.parseDocumentL]
    rw [hns]
    rfl
  · rfl

/-- Witness for C5 at the claim's unterminated-block input `"a {\nb c"`. -/
theorem claim_C5_witness :
    (∀ l ∈ splitLF "a \x7b\nb c".data,
      jsStartsWith ("!use".data) (jsTrim l) = false ∧
      jsStartsWith ("!lint".data) (jsTrim l) = false) ∧
    ∃ d, UpTS.parseS "a \x7b\nb c" = .ok d :=
  ⟨by decide, claim_C5_unterminated_block_ok.1 "a \x7b\nb c" (by decide)⟩

/-- C6: a top-level `!use` line raises the directive-syntax error exactly
when its argument, once trimmed, does not start with `[`; with a bracketed
list the parse yields the `_use` pseudo-node with type annotation
`directive` and the listed namespaces. -/
theorem claim_C6_use_directive :
    (∀ arg : List Char, '\n' ∉ arg →
      ((∃ e, UpTS.parseDocumentL ("!use ".data ++ arg) = .error e) ↔
        jsStartsWith ['['] (jsTrim arg) = false)) ∧
    UpTS.parseS "!use [ns1, ns2]" =
      .ok ⟨[⟨"_use".data, some ("directive".data),
        .use ["ns1".data, "ns2".data]⟩]⟩ := by
  constructor
  · intro arg h
    rw [UpTS.parseDocumentL_use arg h]
    by_cases hS : jsStartsWith ['['] (jsTrim arg) = true
    · rw [if_pos hS]
      constructor
      · rintro ⟨e, he⟩
        cases he
      · intro hF
        rw [hS] at hF
        cases hF
    · rw [if_neg hS]
      constructor
      · intro _
        simpa using hS
      · intro _
        exact ⟨_, rfl⟩
  · rfl

/-- Witness for C6: the malformed directive `!use foo` raises, and the trim
of `foo` indeed does not start with `[`. -/
theorem claim_C6_witness :
    ('\n' ∉ "foo".data) ∧
    jsStartsWith ['['] (jsTrim "foo".data) = false ∧
    ∃ e, UpTS.parseDocumentL ("!use ".data ++ "foo".data) = .error e :=
  ⟨by decide, by decide,
   (claim_C6_use_directive.1 "foo".data (by decide)).mpr (by decide)⟩

/-- C8 (counterexample): the claim says that when the remainder is not
already wrapped in a pair of double quotes, one quote is added at each end.
At the header line `k!quoted "` the remainder (after traditional-mode quote
stripping) is the single character `"`, which is *not* a wrapped pair
(a pair needs two characters), yet the code keeps it unchanged — the node's
value is `"` and not the claim-mandated `"""`. -/
theorem claim_C8_counterexample :
    UpTS.parseS "k!quoted \"" =
      .ok ⟨[⟨"k".data, some ("string".data), .scalar ['"']⟩]⟩ ∧
    (¬ ∃ inner : List Char, (['"'] : List Char) = '"' :: (inner ++ ['"'])) ∧
    (['"'] : List Char) ≠ '"' :: (['"'] ++ ['"']) := by
  refine ⟨by rfl, ?_, by decide⟩
  rintro ⟨inner, h⟩
  have hlen := congrArg List.length h
  simp at hlen

/-- C8 (amended): for a header line `k!quoted <rest>`, the node is a scalar
with type annotation rewritten to `string`, and its value keeps the
remainder unchanged when the remainder *starts and ends with a double
quote* (a lone `"` qualifies, both conditions reading the same character),
adding one quote at each end otherwise.  The remainder is the raw text
after the key token with leading whitespace dropped and one surrounding
quote pair stripped by the traditional-mode splitter. -/
theorem claim_C8_amended (fuel : Nat) (lines : List (List Char)) (i : Nat)
    (k rest : List Char)
    (hline : lines.getD i [] = k ++ '!' :: ("quoted".data ++ ' ' :: rest))
    (hknws : ∀ c ∈ k, isJsWs c = false) (hkb : '!' ∉ k)
    (hrr : '\r' ∉ rest) (hrn : '\n' ∉ rest) :
    UpTS.parseLineF (fuel + 1) lines i =
      (⟨k, some ("string".data),
        .scalar (
          if (UpTS.stripSurroundingQuotes (ltrim rest)).head? = some '"' ∧
              (UpTS.stripSurroundingQuotes (ltrim rest)).getLast? = some '"' then
            UpTS.stripSurroundingQuotes (ltrim rest)
          else '"' :: (UpTS.stripSurroundingQuotes (ltrim rest) ++ ['"']))⟩,
        i + 1) :=
  UpTS.parseLineF_quoted hline hknws hkb hrr hrn

/-- Witness for C8 (amended) at the counterexample line `k!quoted "`: the
remainder is the lone `"`, the starts-and-ends test holds, and the value
stays `"`. -/
theorem claim_C8_amended_witness :
    ("k".data ++ '!' :: ("quoted".data ++ ' ' :: "\"".data)) =
      "k!quoted \"".data ∧
    UpTS.parseLineF 1 ["k!quoted \"".data] 0 =
      (⟨"k".data, some ("string".data),
        .scalar (
          if (UpTS.stripSurroundingQuotes (ltrim "\"".data)).head? = some '"' ∧
              (UpTS.stripSurroundingQuotes (ltrim "\"".data)).getLast? = some '"' then
            UpTS.stripSurroundingQuotes (ltrim "\"".data)
          else '"' :: (UpTS.stripSurroundingQuotes (ltrim "\"".data) ++ ['"']))⟩,
        0 + 1) ∧
    UpTS.stripSurroundingQuotes (ltrim "\"".data) = ['"'] :=
  ⟨by decide,
   claim_C8_amended 0 ["k!quoted \"".data] 0 "k".data "\"".data (by decide)
     (by decide) (by decide) (by decide) (by decide),
   by decide⟩

/-- C9: inline list parsing maps each comma-separated segment to its
trimmed text, so it is insensitive to whitespace around the commas and
inside the brackets; the two concrete documents of the claim parse to the
identical three-element scalar list. -/
theorem claim_C9_inline_list_whitespace :
    (∀ xs : List (List Char),
      (∀ x ∈ xs, ',' ∉ x) → (∃ x ∈ xs, jsTrim x ≠ []) →
      UpTS.parseInlineListL ('[' :: (joinSep ',' xs ++ [']'])) =
        xs.map jsTrim) ∧
    UpTS.parseS "colors [red, green, blue]" =
      UpTS.parseS "colors [ red , green , blue ]" ∧
    UpTS.parseS "colors [red, green, blue]" =
      .ok ⟨[⟨"colors".data, none,
        .vlist [.scalar "red".data, .scalar "green".data,
          .scalar "blue".data]⟩]⟩ := by
  refine ⟨fun xs h1 h2 => UpTS.parseInlineListL_joinSep h1 h2, ?_, by rfl⟩
  have h1 : UpTS.parseS "colors [red, green, blue]" =
      .ok ⟨[⟨"colors".data, none,
        .vlist [.scalar "red".data, .scalar "green".data,
          .scalar "blue".data]⟩]⟩ := by rfl
  have h2 : UpTS.parseS "colors [ red , green , blue ]" =
      .ok ⟨[⟨"colors".data, none,
        .vlist [.scalar "red".data, .scalar "green".data,
          .scalar "blue".data]⟩]⟩ := by rfl
  exact h1.trans h2.symm

/-- Witness for C9 at the whitespace-padded segments of
`[ red , green , blue ]`. -/
theorem claim_C9_witness :
    (∀ x ∈ [" red ".data, " green ".data, " blue ".data], ',' ∉ x) ∧
    (∃ x ∈ [" red ".data, " green ".data, " blue ".data], jsTrim x ≠ []) ∧
    ('[' :: (joinSep ',' [" red ".data, " green ".data, " blue ".data] ++ [']'])) =
      "[ red , green , blue ]".data ∧
    UpTS.parseInlineListL
        ('[' :: (joinSep ',' [" red ".data, " green ".data, " blue ".data] ++ [']'])) =
      [" red ".data, " green ".data, " blue ".data].map jsTrim :=
  ⟨by decide, by decide, by decide,
   claim_C9_inline_list_whitespace.1 _ (by decide) (by decide)⟩

/-- C10: whenever the document driver reaches a line whose trimmed text
starts with the four characters `!use` — including `!useful things` — it
routes the line to the use-directive parser (never the generic line
parser), and when the text after that prefix, once trimmed, does not start
with `[`, the whole parse aborts with the directive error, whatever came
before or after; that error message is the raw directive message, not
wrapped with a `line N:` prefix (the driver's wrapping `catch` is dead code
since no generic-line routine throws, and the directive call sits outside
the `try`). -/
theorem claim_C10_use_routing :
    (∀ (fuel : Nat) (lines : List (List Char)) (i : Nat) (acc : List UpTS.Node),
      i < lines.length →
      jsStartsWith ("!use".data) (jsTrim (lines.getD i [])) = true →
      jsStartsWith ['['] (jsTrim ((jsTrim (lines.getD i [])).drop 4)) = false →
      UpTS.parseDocumentF (fuel + 1) lines i acc = .error UpTS.useMsg) ∧
    jsStartsWith ("line ".data) UpTS.useMsg = false :=
  ⟨fun _ _ _ _ hi huse harg => UpTS.parseDocumentF_use_error hi huse harg,
   by decide⟩

/-- Witness for C10 at the input `!useful things`, where `!use` is only a
prefix of a longer word: the parse aborts with the unwrapped directive
error. -/
theorem claim_C10_witness :
    (0 < ["!useful things".data].length) ∧
    jsStartsWith ("!use".data) (jsTrim (["!useful things".data].getD 0 [])) = true ∧
    UpTS.parseDocumentF 1 ["!useful things".data] 0 [] = .error UpTS.useMsg ∧
    UpTS.parseS "!useful things" = .error UpTS.useMsg :=
  ⟨by decide, by decide,
   claim_C10_use_routing.1 0 ["!useful things".data] 0 [] (by decide) (by decide)
     (by decide),
   by rfl⟩

namespace UpLib

theorem mem_of_mem_newKeys {x : List Char} {seen l : List (List Char)}
    (h : x ∈ newKeys seen l) : x ∈ l := by
  induction l generalizing seen with
  | nil => cases h
  | cons k rest ih =>
    by_cases hk : k ∈ seen
    · rw [newKeys, if_pos hk] at h
      exact List.mem_cons_of_mem _ (ih h)
    · rw [newKeys, if_neg hk] at h
      rcases List.mem_cons.mp h with rfl | h0
      · exact List.mem_cons_self _ _
      · exact List.mem_cons_of_mem _ (ih h0)

theorem count_insertByVal (k x : List Char) (l : List (List Char)) :
    (insertByVal x l).count k = (x :: l).count k := by
  induction l with
  | nil => rfl
  | cons y rest ih =>
    rw [insertByVal]
    by_cases h : arrIdxVal x ≤ arrIdxVal y
    · rw [if_pos h]
    · rw [if_neg h]
      simp only [List.count_cons]
      rw [ih]
      simp only [List.count_cons]
      ring

theorem count_sortByVal (k : List Char) (l : List (List Char)) :
    (sortByVal l).count k = l.count k := by
  induction l with
  | nil => rfl
  | cons x rest ih =>
    rw [sortByVal, count_insertByVal, List.count_cons, ih, ← List.count_cons]

theorem count_filter_split (k : List Char) (p : List Char → Bool)
    (l : List (List Char)) :
    (l.filter p).count k + (l.filter (fun x => !p x)).count k = l.count k := by
  induction l with
  | nil => rfl
  | cons y rest ih =>
    by_cases h : p y = true
    · rw [List.filter_cons, if_pos h, List.filter_cons,
        if_neg (show ¬ (!p y) = true by simp [h])]
      simp only [List.count_cons]
      omega
    · rw [List.filter_cons, if_neg h, List.filter_cons,
        if_pos (show (!p y) = true by simp [h])]
      simp only [List.count_cons]
      omega

theorem count_jsOwnKeysOf (k : List Char) (l : List (List Char)) :
    (jsOwnKeysOf l).count k = l.count k := by
  rw [jsOwnKeysOf, List.count_append, count_sortByVal, count_filter_split]

theorem jsOwnKeysOf_of_no_index (l : List (List Char))
    (h : ∀ x ∈ l, isArrayIndex x = false) : jsOwnKeysOf l = l := by
  rw [jsOwnKeysOf,
    List.filter_eq_nil_iff.mpr (fun a ha => by simp [h a ha]),
    List.filter_eq_self.mpr (fun a ha => by simp [h a ha])]
  rfl

end UpLib

/-- C7 (counterexample): the claim places every re-assigned key at the
position of its first appearance in the block's insertion order, but JS
objects enumerate array-index-like string keys (canonical decimals such as
`"0"`) in ascending numeric order *before* all other keys.  Parsing
`x {\nb 1\n0 2\n0 3\n}` assigns `b` first and then `0` twice: the property
table (creation order) holds `b` then `0` with the last value `3`, yet the
object's enumerated key order is `["0", "b"]` — key `"0"` sits at position
0, not at its first-appearance position 1 as the claim demands. -/
theorem claim_C7_counterexample :
    UpTS.parseS "x \x7b\nb 1\n0 2\n0 3\n\x7d" =
      .ok ⟨[⟨"x".data, none, .block [("b".data, .scalar "1".data),
        ("0".data, .scalar "3".data)]⟩]⟩ ∧
    jsOwnKeys [("b".data, UpTS.Value.scalar "1".data),
      ("0".data, UpTS.Value.scalar "3".data)] = ["0".data, "b".data] ∧
    firstKeys ["b".data, "0".data, "0".data] = ["b".data, "0".data] ∧
    (["0".data, "b".data] : List (List Char)) ≠ ["b".data, "0".data] :=
  ⟨by rfl, by rfl, by rfl, by decide⟩

/-- C7 (amended): folding a sequence of key/value assignments with the JS
object-assignment used by `#parseBlock` (`insertJS`), a key `k` assigned
more than once yields exactly one property for `k` — also in the enumerated
key list — holding the value of the last assignment, and no entry ever
moves on re-assignment: the property table lists keys in first-appearance
order, and the object's enumeration order is a function of those first
appearances alone (array-index-like keys ascending first, per the JS object
model); when no key of the block is array-index-like, the enumerated
position of `k` is exactly where `k` first appeared, as the original claim
states.  The concrete conjunct re-assigns `a` inside a parsed block. -/
theorem claim_C7_amended :
    (∀ (ps : List (List Char × UpTS.Value)) (k : List Char),
      2 ≤ (ps.map Prod.fst).count k →
        ((foldInsert ps).map Prod.fst = firstKeys (ps.map Prod.fst) ∧
         (jsOwnKeys (foldInsert ps)).count k = 1 ∧
         lookupAL k (foldInsert ps) = lastVal k ps ∧
         (lastVal k ps).isSome = true ∧
         jsOwnKeys (foldInsert ps) = jsOwnKeysOf (firstKeys (ps.map Prod.fst)) ∧
         ((∀ x ∈ ps.map Prod.fst, isArrayIndex x = false) →
           jsOwnKeys (foldInsert ps) = firstKeys (ps.map Prod.fst)))) ∧
    UpTS.parseS "x \x7b\na 1\nb 2\na 3\n\x7d" =
      .ok ⟨[⟨"x".data, none, .block [("a".data, .scalar "3".data),
        ("b".data, .scalar "2".data)]⟩]⟩ := by
  constructor
  · intro ps k hcount
    have hkeys : (foldInsert ps).map Prod.fst = firstKeys (ps.map Prod.fst) := by
      have h := keys_foldl_insert ps []
      simpa [foldInsert, firstKeys] using h
    have hmem : k ∈ ps.map Prod.fst := by
      by_contra hmem
      rw [List.count_eq_zero_of_not_mem hmem] at hcount
      omega
    have hcnt1 : ((foldInsert ps).map Prod.fst).count k = 1 := by
      rw [hkeys, firstKeys, newKeys_count]
      simp [hmem]
    have henum : jsOwnKeys (foldInsert ps) =
        jsOwnKeysOf (firstKeys (ps.map Prod.fst)) := by
      rw [jsOwnKeys, hkeys]
    refine ⟨hkeys, ?_, ?_, lastVal_isSome_of_mem hmem, henum, ?_⟩
    · rw [jsOwnKeys, count_jsOwnKeysOf]
      exact hcnt1
    · have h := lookup_foldl_insert ps k []
      rcases hl : lastVal k ps with _ | v
      · rw [foldInsert, h, hl]
        rfl
      · rw [foldInsert, h, hl]
    · intro hno
      rw [henum, jsOwnKeysOf_of_no_index (firstKeys (ps.map Prod.fst))
        (fun x hx => hno x (mem_of_mem_newKeys hx))]
  · rfl

/-- Witness for C7 (amended) at the assignment sequence
`a := 1, b := 2, a := 3` (as produced by the concrete parse): one `a`
property, last value `3`, and — no key being array-index-like — the
enumerated order is exactly the first-appearance order `["a", "b"]`. -/
theorem claim_C7_amended_witness :
    2 ≤ (([("a".data, UpTS.Value.scalar "1".data),
           ("b".data, UpTS.Value.scalar "2".data),
           ("a".data, UpTS.Value.scalar "3".data)].map Prod.fst).count "a".data) ∧
    (jsOwnKeys (foldInsert [("a".data, UpTS.Value.scalar "1".data),
        ("b".data, UpTS.Value.scalar "2".data),
        ("a".data, UpTS.Value.scalar "3".data)])).count "a".data = 1 ∧
    lookupAL "a".data (foldInsert [("a".data, UpTS.Value.scalar "1".data),
        ("b".data, UpTS.Value.scalar "2".data),
        ("a".data, UpTS.Value.scalar "3".data)]) =
      lastVal "a".data [("a".data, UpTS.Value.scalar "1".data),
        ("b".data, UpTS.Value.scalar "2".data),
        ("a".data, UpTS.Value.scalar "3".data)] ∧
    jsOwnKeys (foldInsert [("a".data, UpTS.Value.scalar "1".data),
        ("b".data, UpTS.Value.scalar "2".data),
        ("a".data, UpTS.Value.scalar "3".data)]) =
      firstKeys ([("a".data, UpTS.Value.scalar "1".data),
        ("b".data, UpTS.Value.scalar "2".data),
        ("a".data, UpTS.Value.scalar "3".data)].map Prod.fst) :=
  ⟨by decide,
   (claim_C7_amended.1 _ "a".data (by decide)).2.1,
   (claim_C7_amended.1 _ "a".data (by decide)).2.2.1,
   (claim_C7_amended.1 _ "a".data (by decide)).2.2.2.2.2 (by decide)⟩
